import Mathlib

/-!
Verification development for the MLAI-CRAWLER repository.

The crawler variants (src/Crawler-v02.py, src/Code.py, src/crawler.py, ...)
are Python programs built on `urllib.parse` and `pathlib`.  This file gives a
shallow embedding of the code paths that the specification's claims are about:

* `urlsplit` / `urlparse` / `urlunsplit` / `urlunparse` / `urljoin` follow
  CPython's `urllib/parse.py` (the WHATWG control-character stripping and the
  IPv6-bracket / NFKC validation, which only matter for URLs containing
  control characters or brackets, are not modelled; on URLs free of those
  characters the embedding computes exactly what CPython computes).
* `pathName` / `pathSuffix` follow `pathlib.PurePath.name` / `.suffix`.
* The `CrawlerV02` namespace embeds `EnhancedCrawler` of src/Crawler-v02.py:
  URL normalisation, the file classifier, the PDF extractor, the proxy
  manager, the retrying request handler and the BFS crawl loop.
* The `CodeVariant` namespace embeds the classifier of src/Code.py (identical
  in src/Crawler5.py), which applies `Path(url).suffix` to the whole URL.

Strings are modelled as `List Char` (`Str`), matching Python `str` for the
ASCII inputs the crawler manipulates.
-/

set_option maxRecDepth 8000

abbrev Str := List Char

/-- Python `str.lower()` (ASCII range, which is all the crawler relies on). -/
def strLower (s : Str) : Str := s.map Char.toLower

/-- Split a string at the first occurrence of `c`; `none` when `c` does not
occur.  Models Python `s.split(c, 1)` together with the `c in s` test. -/
def splitFirst (c : Char) : Str → Option (Str × Str)
  | [] => none
  | x :: xs =>
    if x = c then some ([], xs)
    else (splitFirst c xs).map (fun p => (x :: p.1, p.2))

theorem splitFirst_eq_none {c : Char} {s : Str} :
    splitFirst c s = none ↔ c ∉ s := by
  induction s with
  | nil => simp [splitFirst]
  | cons x xs ih =>
    by_cases hx : x = c
    · subst hx; simp [splitFirst]
    · rw [splitFirst, if_neg hx]
      cases hsp : splitFirst c xs with
      | none =>
        have hxs : c ∉ xs := ih.mp hsp
        constructor
        · intro _
          simp only [List.mem_cons]
          rintro (rfl | hmem)
          · exact hx rfl
          · exact hxs hmem
        · intro _; rfl
      | some p =>
        have hcx : c ∈ xs := by
          by_contra hn
          rw [ih.mpr hn] at hsp; exact Option.noConfusion hsp
        constructor
        · intro hcontra; exact Option.noConfusion hcontra
        · intro hmem
          exact absurd (List.mem_cons_of_mem x hcx) hmem

theorem splitFirst_eq_some {c : Char} {s a b : Str}
    (h : splitFirst c s = some (a, b)) : s = a ++ c :: b ∧ c ∉ a := by
  induction s generalizing a b with
  | nil => simp [splitFirst] at h
  | cons x xs ih =>
    by_cases hx : x = c
    · subst hx
      rw [splitFirst, if_pos rfl] at h
      obtain ⟨rfl, rfl⟩ : [] = a ∧ xs = b := by
        simpa [Prod.ext_iff] using h
      simp
    · rw [splitFirst, if_neg hx] at h
      cases hsp : splitFirst c xs with
      | none => rw [hsp] at h; exact Option.noConfusion h
      | some p =>
        rw [hsp] at h
        obtain ⟨a', b'⟩ := p
        obtain ⟨ha, hb⟩ : x :: a' = a ∧ b' = b := by
          simpa [Prod.ext_iff] using h
        obtain ⟨hs, hnotin⟩ := ih hsp
        subst hb
        constructor
        · rw [← ha, hs]; simp
        · rw [← ha]
          simp only [List.mem_cons]
          rintro (rfl | hmem)
          · exact hx rfl
          · exact hnotin hmem

theorem splitFirst_append {c : Char} {a : Str} (b : Str) (ha : c ∉ a) :
    splitFirst c (a ++ c :: b) = some (a, b) := by
  induction a with
  | nil => simp [splitFirst]
  | cons x xs ih =>
    have hx : ¬ x = c := fun h => ha (h ▸ List.mem_cons_self x xs)
    have hxs : c ∉ xs := fun h => ha (List.mem_cons_of_mem _ h)
    simp [splitFirst, if_neg hx, ih hxs]

theorem splitFirst_not_mem {c : Char} {s : Str} (h : c ∉ s) :
    splitFirst c s = none := splitFirst_eq_none.mpr h

theorem splitFirst_length {c : Char} {s : Str} {p : Str × Str}
    (h : splitFirst c s = some p) : p.2.length < s.length := by
  obtain ⟨hs, _⟩ := splitFirst_eq_some (a := p.1) (b := p.2)
    (by simpa using h)
  subst hs; simp; omega

/-- Split at the last occurrence of `c` (Python `rfind` based splitting):
`rsplitLast c s = some (a, b)` iff `s = a ++ c :: b` with `c ∉ b`. -/
def rsplitLast (c : Char) (s : Str) : Option (Str × Str) :=
  match splitFirst c s.reverse with
  | none => none
  | some (x, y) => some (y.reverse, x.reverse)

theorem rsplitLast_eq_some {c : Char} {s a b : Str}
    (h : rsplitLast c s = some (a, b)) : s = a ++ c :: b ∧ c ∉ b := by
  unfold rsplitLast at h
  cases hsp : splitFirst c s.reverse with
  | none => rw [hsp] at h; simp at h
  | some p =>
    rw [hsp] at h
    obtain ⟨x, y⟩ := p
    simp only [Option.some_inj, Prod.mk.injEq] at h
    obtain ⟨hrev, hnot⟩ := splitFirst_eq_some hsp
    constructor
    · have : s = (s.reverse).reverse := by simp
      rw [this, hrev]
      simp [← h.1, ← h.2]
    · rw [← h.2]
      simpa using hnot

/-- Characters allowed in a URL scheme (`urllib.parse.scheme_chars`). -/
def isSchemeChar (c : Char) : Bool :=
  c.isAlpha || c.isDigit || c == '+' || c == '-' || c == '.'

/-- CPython's test that `url[:i]` is a scheme: nonempty, leading ASCII
letter, all characters in `scheme_chars`. -/
def validScheme (s : Str) : Bool :=
  match s with
  | [] => false
  | c :: _ => c.isAlpha && s.all isSchemeChar

/-- Characters that end the netloc in `_splitnetloc` (`'/?#'`). -/
def notNetlocDelim (c : Char) : Bool := !(c == '/' || c == '?' || c == '#')

/-- Result of `urllib.parse.urlsplit`. -/
structure SplitResult where
  scheme : Str
  netloc : Str
  path : Str
  query : Str
  fragment : Str
deriving DecidableEq

/-- `urllib.parse.urlsplit(url, scheme0)` with `allow_fragments=True`:
detach a valid scheme (lowercased; `scheme0` is the default when absent),
then the `//`-prefixed netloc up to the first `/?#`, then the fragment after
the first `#`, then the query after the first `?`. -/
def splitScheme (url0 : Str) (scheme0 : Str) : Str × Str :=
  match splitFirst ':' url0 with
  | some (pre, post) =>
    if validScheme pre then (strLower pre, post) else (scheme0, url0)
  | none => (scheme0, url0)

/-- `_splitnetloc` guarded by the `url[:2] == '//'` test. -/
def splitNetloc : Str → Str × Str
  | '/' :: '/' :: r => (r.takeWhile notNetlocDelim, r.dropWhile notNetlocDelim)
  | other => ([], other)

/-- `url, fragment = url.split('#', 1)` when `'#' in url`. -/
def splitFragmentFn (s : Str) : Str × Str :=
  match splitFirst '#' s with
  | some (a, b) => (a, b)
  | none => (s, [])

/-- `url, query = url.split('?', 1)` when `'?' in url`. -/
def splitQueryFn (s : Str) : Str × Str :=
  match splitFirst '?' s with
  | some (a, b) => (a, b)
  | none => (s, [])

def urlsplit (url0 : Str) (scheme0 : Str) : SplitResult :=
  let sp := splitScheme url0 scheme0
  let np := splitNetloc sp.2
  let pf := splitFragmentFn np.2
  let pq := splitQueryFn pf.1
  ⟨sp.1, np.1, pq.1, pq.2, pf.2⟩

/-- `urllib.parse.uses_relative`. -/
def uses_relative : List Str :=
  ["", "ftp", "http", "gopher", "nntp", "imap", "wais", "file", "https",
   "shttp", "mms", "prospero", "rtsp", "rtsps", "rtspu", "sftp", "svn",
   "svn+ssh", "ws", "wss"].map String.toList

/-- `urllib.parse.uses_netloc`. -/
def uses_netloc : List Str :=
  ["", "ftp", "http", "gopher", "nntp", "telnet", "imap", "wais", "file",
   "mms", "https", "shttp", "snews", "prospero", "rtsp", "rtsps", "rtspu",
   "rsync", "svn", "svn+ssh", "sftp", "nfs", "git", "git+ssh", "ws",
   "wss"].map String.toList

/-- `urllib.parse.uses_params`. -/
def uses_params : List Str :=
  ["", "ftp", "hdl", "prospero", "http", "imap", "https", "shttp", "rtsp",
   "rtsps", "rtspu", "sip", "sips", "mms", "sftp", "tel"].map String.toList

/-- `urllib.parse._splitparams`: split `;params` off the last path segment. -/
def splitparams (url : Str) : Str × Str :=
  match rsplitLast '/' url with
  | some (before, after) =>
    match splitFirst ';' after with
    | some (a, b) => (before ++ '/' :: a, b)
    | none => (url, [])
  | none =>
    match splitFirst ';' url with
    | some (a, b) => (a, b)
    | none => (url, [])

/-- Result of `urllib.parse.urlparse`. -/
structure ParseResult where
  scheme : Str
  netloc : Str
  path : Str
  params : Str
  query : Str
  fragment : Str
deriving DecidableEq

/-- `urllib.parse.urlparse(url, scheme0)`: `urlsplit` plus the `;params`
split on the path when the scheme uses params. -/
def urlparse (url0 : Str) (scheme0 : Str) : ParseResult :=
  let s := urlsplit url0 scheme0
  if s.scheme ∈ uses_params ∧ ';' ∈ s.path then
    let pp := splitparams s.path
    ⟨s.scheme, s.netloc, pp.1, pp.2, s.query, s.fragment⟩
  else
    ⟨s.scheme, s.netloc, s.path, [], s.query, s.fragment⟩

/-- `urllib.parse.urlunsplit`. -/
def urlunsplit (c : SplitResult) : Str :=
  let url := c.path
  let url :=
    if c.netloc ≠ [] ∨ (c.scheme ≠ [] ∧ c.scheme ∈ uses_netloc ∧ url.take 2 ≠ ['/', '/']) then
      let url := if url ≠ [] ∧ url.take 1 ≠ ['/'] then '/' :: url else url
      '/' :: '/' :: (c.netloc ++ url)
    else url
  let url := if c.scheme ≠ [] then c.scheme ++ ':' :: url else url
  let url := if c.query ≠ [] then url ++ '?' :: c.query else url
  if c.fragment ≠ [] then url ++ '#' :: c.fragment else url

/-- `urllib.parse.urlunparse`. -/
def urlunparse (p : ParseResult) : Str :=
  let url := if p.params ≠ [] then p.path ++ ';' :: p.params else p.path
  urlunsplit ⟨p.scheme, p.netloc, url, p.query, p.fragment⟩

/-- Auxiliary for `splitAll`: `acc` holds the current piece reversed. -/
def splitAllAux (c : Char) : Str → Str → List Str
  | [], acc => [acc.reverse]
  | x :: xs, acc =>
    if x = c then acc.reverse :: splitAllAux c xs []
    else splitAllAux c xs (x :: acc)

/-- Python `str.split(c)` (no maxsplit): always at least one piece. -/
def splitAll (c : Char) (s : Str) : List Str := splitAllAux c s []

theorem splitAllAux_not_mem {c : Char} {s : Str} (acc : Str) (h : c ∉ s) :
    splitAllAux c s acc = [acc.reverse ++ s] := by
  induction s generalizing acc with
  | nil => simp [splitAllAux]
  | cons x xs ih =>
    have hx : ¬ x = c := fun hc => h (hc ▸ List.mem_cons_self x xs)
    have hxs : c ∉ xs := fun hc => h (List.mem_cons_of_mem _ hc)
    rw [splitAllAux, if_neg hx, ih _ hxs]
    simp

theorem splitAllAux_append {c : Char} {a : Str} (b acc : Str) (ha : c ∉ a) :
    splitAllAux c (a ++ c :: b) acc = (acc.reverse ++ a) :: splitAllAux c b [] := by
  induction a generalizing acc with
  | nil => simp [splitAllAux]
  | cons x xs ih =>
    have hx : ¬ x = c := fun hc => ha (hc ▸ List.mem_cons_self x xs)
    have hxs : c ∉ xs := fun hc => ha (List.mem_cons_of_mem _ hc)
    rw [List.cons_append, splitAllAux, if_neg hx, ih _ hxs]
    simp

theorem splitAll_not_mem {c : Char} {s : Str} (h : c ∉ s) :
    splitAll c s = [s] := by
  rw [splitAll, splitAllAux_not_mem _ h]; rfl

theorem splitAll_append {c : Char} {a : Str} (b : Str) (ha : c ∉ a) :
    splitAll c (a ++ c :: b) = a :: splitAll c b := by
  rw [splitAll, splitAllAux_append _ _ ha]; rfl

/-- The slice assignment `segments[1:-1] = filter(None, segments[1:-1])` of
`urljoin`: drop empty segments, keeping the first and last elements. -/
def dropMiddleEmpty : List Str → List Str
  | [] => []
  | [a] => [a]
  | a :: rest => if a = [] then dropMiddleEmpty rest else a :: dropMiddleEmpty rest

def filterMiddle : List Str → List Str
  | [] => []
  | [a] => [a]
  | a :: rest => a :: dropMiddleEmpty rest

/-- The `resolved_path` loop of `urljoin`: `..` pops (ignoring underflow),
`.` is skipped, other segments are appended. -/
def resolveSegs (acc : List Str) : List Str → List Str
  | [] => acc
  | seg :: rest =>
    if seg = ['.', '.'] then resolveSegs acc.dropLast rest
    else if seg = ['.'] then resolveSegs acc rest
    else resolveSegs (acc ++ [seg]) rest

/-- `urllib.parse.urljoin(base, url)` with `allow_fragments=True`. -/
def urljoin (base url : Str) : Str :=
  if base = [] then url
  else if url = [] then base
  else
    let b := urlparse base []
    let u := urlparse url b.scheme
    if u.scheme ≠ b.scheme ∨ u.scheme ∉ uses_relative then url
    else if u.scheme ∈ uses_netloc ∧ u.netloc ≠ [] then
      urlunparse ⟨u.scheme, u.netloc, u.path, u.params, u.query, u.fragment⟩
    else
      let netloc := if u.scheme ∈ uses_netloc then b.netloc else u.netloc
      if u.path = [] ∧ u.params = [] then
        urlunparse ⟨u.scheme, netloc, b.path, b.params,
          (if u.query = [] then b.query else u.query), u.fragment⟩
      else
        let base_parts0 := splitAll '/' b.path
        let base_parts :=
          if base_parts0.getLast?.getD [] ≠ [] then base_parts0.dropLast
          else base_parts0
        let segments :=
          if u.path.take 1 = ['/'] then splitAll '/' u.path
          else filterMiddle (base_parts ++ splitAll '/' u.path)
        let resolved := resolveSegs [] segments
        let resolved :=
          if segments.getLast?.getD [] = ['.'] ∨ segments.getLast?.getD [] = ['.', '.']
          then resolved ++ [[]] else resolved
        let joined := List.intercalate ['/'] resolved
        let path2 := if joined = [] then ['/'] else joined
        urlunparse ⟨u.scheme, netloc, path2, u.params, u.query, u.fragment⟩

/-- The path-combination part of `urljoin`'s relative branch: base path
segments without the last named one, joined with the url's segments,
`.`/`..` resolved, re-joined with `'/'`, empty replaced by `'/'`. -/
def joinPath (bp up : Str) : Str :=
  let base_parts0 := splitAll '/' bp
  let base_parts :=
    if base_parts0.getLast?.getD [] ≠ [] then base_parts0.dropLast
    else base_parts0
  let segments :=
    if up.take 1 = ['/'] then splitAll '/' up
    else filterMiddle (base_parts ++ splitAll '/' up)
  let resolved := resolveSegs [] segments
  let resolved :=
    if segments.getLast?.getD [] = ['.'] ∨ segments.getLast?.getD [] = ['.', '.']
    then resolved ++ [[]] else resolved
  let joined := List.intercalate ['/'] resolved
  if joined = [] then ['/'] else joined

/-- Python `str.rstrip('/')`: drop all trailing `'/'` characters. -/
def rstripSlash (s : Str) : Str := (s.reverse.dropWhile (· == '/')).reverse

/-- `pathlib.PurePosixPath(p).name`: the last path component, after dropping
empty components and `'.'` components. -/
def pathName (p : Str) : Str :=
  (((splitAll '/' p).filter (fun s => s ≠ [] ∧ s ≠ ['.'])).getLast?).getD []

/-- Python whitespace recognised by `str.strip()` (ASCII range). -/
def isPySpace (c : Char) : Bool :=
  c == ' ' || c == '\t' || c == '\n' || c == '\r' ||
  c == (Char.ofNat 11) || c == (Char.ofNat 12)

/-- Python `str.strip()` with no argument (ASCII whitespace). -/
def pyStrip (s : Str) : Str :=
  ((s.dropWhile isPySpace).reverse.dropWhile isPySpace).reverse

/-- `pathlib.PurePath(p).suffix`: the extension of `name`, i.e. `name[i:]`
for `i = name.rfind('.')` when `0 < i < len(name) - 1`, else empty. -/
def pathSuffix (p : Str) : Str :=
  let nm := pathName p
  match rsplitLast '.' nm with
  | none => []
  | some (a, b) => if a ≠ [] ∧ b ≠ [] then '.' :: b else []

namespace CrawlerV02

/-!  Embedding of `EnhancedCrawler` and its helpers from src/Crawler-v02.py. -/

/-- `EnhancedCrawler._normalize_url` (src/Crawler-v02.py:412-416):
`urljoin` against `base_url`, reparse, and rebuild as
`f"{scheme}://{netloc}{path}".rstrip('/')` — note that `params`, `query` and
`fragment` of the parse result are not used. -/
def normalize_url (base_url url : Str) : Str :=
  let joined := urljoin base_url url
  let parsed := urlparse joined []
  rstripSlash (parsed.scheme ++ ':' :: '/' :: '/' :: (parsed.netloc ++ parsed.path))

/-- Boolean substring test, Python `needle in haystack`. -/
def isSubstr (needle haystack : Str) : Bool :=
  match haystack with
  | [] => needle = []
  | _ :: rest => needle.isPrefixOf haystack || isSubstr needle rest

/-- `EnhancedCrawler._is_valid_url` (src/Crawler-v02.py:418-434).  The three
excluded regexes reduce to: an auth-related substring, a `#` anywhere, or a
`.css`/`.js`/`.json`/`.xml` suffix, all tested on `url.lower()`. -/
def is_valid_url (domain url : Str) : Bool :=
  if url = [] then false
  else
    let parsed := urlparse url []
    if parsed.netloc ≠ [] ∧ parsed.netloc ≠ domain then false
    else
      let low := strLower url
      ¬ (isSubstr "login".toList low || isSubstr "logout".toList low ||
         isSubstr "signin".toList low || isSubstr "signout".toList low ||
         isSubstr "auth".toList low || isSubstr "#".toList low ||
         ".css".toList.isSuffixOf low || ".js".toList.isSuffixOf low ||
         ".json".toList.isSuffixOf low || ".xml".toList.isSuffixOf low)

/-- `FileHandler.downloadable_extensions` (src/Crawler-v02.py:102-114),
in insertion order. -/
def downloadable_extensions : List (Str × List Str) :=
  [("document", [".pdf", ".doc", ".docx", ".txt", ".rtf", ".odt"]),
   ("spreadsheet", [".xls", ".xlsx", ".csv", ".ods"]),
   ("presentation", [".ppt", ".pptx", ".odp"]),
   ("archive", [".zip", ".rar", ".7z", ".tar", ".gz"]),
   ("image", [".jpg", ".jpeg", ".png", ".gif", ".bmp", ".svg"]),
   ("audio", [".mp3", ".wav", ".ogg", ".m4a"]),
   ("video", [".mp4", ".avi", ".mkv", ".mov"]),
   ("code", [".py", ".js", ".html", ".css", ".java", ".cpp", ".h"]),
   ("data", [".json", ".xml", ".yaml", ".sql"]),
   ("ebook", [".epub", ".mobi", ".azw"]),
   ("other", [])].map (fun p => (p.1.toList, p.2.map String.toList))

/-- `FileHandler.get_file_category` (src/Crawler-v02.py:116-124): the suffix
is computed from `urlparse(url).path` via `pathlib`, lowercased, and looked
up in the table in declaration order; a present but unmatched suffix gives
`'other'`; no suffix gives `None`. -/
def get_file_category (url : Str) : Option Str :=
  let ext := strLower (pathSuffix ((urlparse url []).path))
  match downloadable_extensions.find? (fun p => decide (ext ∈ p.2)) with
  | some p => some p.1
  | none => if ext ≠ [] then some "other".toList else none

/-- `FileHandler.is_downloadable_file` (src/Crawler-v02.py:126-128). -/
def is_downloadable_file (url : Str) : Bool :=
  (get_file_category url).isSome

end CrawlerV02

namespace CrawlerV02

/-!  `PDFProcessor.extract_text_from_pdf` (src/Crawler-v02.py:70-94).

A backend (`_extract_with_pymupdf`, `_extract_with_pypdf2`,
`_extract_with_ocr`) either produces a string or raises; the outer loop
catches any exception and moves on.  The extractor is therefore embedded as
a function of the list of `(method_name, outcome)` pairs in declaration
order, `Except Unit Str` standing for "raised" / "returned text". -/

/-- One step of the `for method_name, extract_method in methods.items()`
loop: keep `(best_text, best_method, max_length)`, updating on a strictly
greater stripped length; exceptions leave the accumulator unchanged. -/
def extractStep (acc : Str × Str × Nat) (m : Str × Except Unit Str) :
    Str × Str × Nat :=
  match m.2 with
  | .error _ => acc
  | .ok t => if acc.2.2 < (pyStrip t).length then (t, m.1, (pyStrip t).length) else acc

/-- `PDFProcessor.extract_text_from_pdf`: fold `extractStep` over the
backends starting from `("", "", 0)` and return `(best_text, best_method)`. -/
def extract_text_from_pdf (methods : List (Str × Except Unit Str)) : Str × Str :=
  let r := methods.foldl extractStep ([], [], 0)
  (r.1, r.2.1)

/-- The stripped length a backend outcome contributes (a raised backend
contributes nothing). -/
def stripLen (r : Except Unit Str) : Nat :=
  match r with
  | .error _ => 0
  | .ok t => (pyStrip t).length

/-- Spec-side definition (§4.6 / invariant 5 of spec.md): the greatest
`strip()` length over all backends. -/
def maxStripLen (methods : List (Str × Except Unit Str)) : Nat :=
  (methods.map (fun m => stripLen m.2)).foldr max 0

/-- The text a backend outcome carries (a raised backend carries none). -/
def textOf (m : Str × Except Unit Str) : Str :=
  match m.2 with
  | .ok t => t
  | .error _ => []

/-- Spec-side definition: the `(text, backend_name)` of the first backend
attaining stripped length `n`. -/
def firstWithLen (n : Nat) : List (Str × Except Unit Str) → Str × Str
  | [] => ([], [])
  | m :: rest =>
    if stripLen m.2 = n then (textOf m, m.1)
    else firstWithLen n rest

/-- Spec-side definition, following §4.6 of spec.md word for word: return
the output of the backend whose `strip()` length is greatest, ties broken
by declared order; if every backend yields empty stripped text, `("", "")`. -/
def extractSpec (methods : List (Str × Except Unit Str)) : Str × Str :=
  if maxStripLen methods = 0 then ([], [])
  else firstWithLen (maxStripLen methods) methods

end CrawlerV02

namespace CrawlerV02

/-!  `EnhancedCrawler._handle_request` (src/Crawler-v02.py:385-410).

Per-attempt network behaviour is an oracle `Nat → Outcome`: attempt `i`
either fails in transport (any exception from the session) or produces a
response with a status code; `response.raise_for_status()` raises exactly
when the status is `≥ 400`.  The embedding records the attempt count, the
`proxy_manager.record_result` calls, the back-off sleep multipliers (the
code sleeps `request_delay * (attempt + 1)`), the failed-URL set additions
and the `crawl_stats['errors']` increments. -/

inductive Outcome where
  | transport : Outcome
  | resp : Nat → Outcome
deriving DecidableEq

/-- Attempt `i` fails iff it raises in transport or returns status ≥ 400
(which `raise_for_status` turns into an exception). -/
def failsAt (oracle : Nat → Outcome) (i : Nat) : Bool :=
  match oracle i with
  | .transport => true
  | .resp s => 400 ≤ s

structure FetchLog where
  attempts : Nat
  results : List Bool
  sleeps : List Nat
  failed : List Str
  errors : Nat
deriving DecidableEq

/-- The `except` branch of `_handle_request`: `record_result(False)`, add to
`failed_urls` and bump the error counter on the last attempt, then sleep
`request_delay * (attempt + 1)`. -/
def failStep (url : Str) (max_retries attempt : Nat) (log : FetchLog) : FetchLog :=
  { attempts := log.attempts + 1
    results := log.results ++ [false]
    sleeps := log.sleeps ++ [attempt + 1]
    failed := if attempt = max_retries - 1 then log.failed ++ [url] else log.failed
    errors := if attempt = max_retries - 1 then log.errors + 1 else log.errors }

/-- The `for attempt in range(self.max_retries)` loop; `remaining` counts the
iterations left, `attempt` is the loop index. -/
def handleRequestGo (oracle : Nat → Outcome) (url : Str) (max_retries : Nat) :
    Nat → Nat → FetchLog → FetchLog × Option Nat
  | 0, _, log => (log, none)
  | remaining + 1, attempt, log =>
    match oracle attempt with
    | .resp s =>
      if s < 400 then
        ({ log with attempts := log.attempts + 1, results := log.results ++ [true] },
         some s)
      else handleRequestGo oracle url max_retries remaining (attempt + 1)
        (failStep url max_retries attempt log)
    | .transport => handleRequestGo oracle url max_retries remaining (attempt + 1)
        (failStep url max_retries attempt log)

/-- `EnhancedCrawler._handle_request`: run the loop for `max_retries`
attempts from an empty log; falling off the loop returns `None`. -/
def handle_request (oracle : Nat → Outcome) (url : Str) (max_retries : Nat) :
    FetchLog × Option Nat :=
  handleRequestGo oracle url max_retries max_retries 0 ⟨0, [], [], [], 0⟩

end CrawlerV02

namespace CrawlerV02

/-!  `ProxyManager` (src/Crawler-v02.py:149-282).

A proxy dictionary `{'http': ..., 'https': ...}` is a pair of optional URL
strings (`none` models Python `None`, i.e. a direct connection); `speed` is
the measured latency recorded by `_test_proxy` (`none` when never measured;
latencies are abstracted to `Nat`). -/

structure Proxy where
  httpUrl : Option Str
  httpsUrl : Option Str
  speed : Option Nat
deriving DecidableEq

/-- The fallback entry `{"http": None, "https": None}` (direct connection). -/
def directProxy : Proxy := ⟨none, none, none⟩

/-- `f"http://{username}:{password}@{ip}:{port}"`. -/
def proxyUrl (ip port user pw : Str) : Str :=
  "http://".toList ++ user ++ ':' :: pw ++ '@' :: ip ++ ':' :: port

/-- One line of the proxy file (src/Crawler-v02.py:176-187): strip, skip if
empty, split on `':'`, accept exactly `ip:port:username:password`, anything
else is logged and skipped. -/
def parseProxyLine (line : Str) : Option Proxy :=
  let line := pyStrip line
  if line = [] then none
  else
    match splitAll ':' line with
    | [ip, port, user, pw] =>
      some ⟨some (proxyUrl ip port user pw), some (proxyUrl ip port user pw), none⟩
    | _ => none

/-- `ProxyManager._load_proxies` (src/Crawler-v02.py:169-196).  The input is
the outcome of reading the proxy file: `.error` for an I/O exception,
`.ok none` for an absent file, `.ok (some lines)` for its lines.  In every
case an empty result list falls back to the single direct entry. -/
def load_proxies (file : Except Unit (Option (List Str))) : List Proxy :=
  match file with
  | .error _ => [directProxy]
  | .ok none => [directProxy]
  | .ok (some lines) =>
    let loaded := lines.filterMap parseProxyLine
    if loaded = [] then [directProxy] else loaded

/-- Sort key of `_update_proxies`: `x.get('speed', float('inf'))`; `none`
(never measured) sorts after every measured latency. -/
def speedLE (a b : Proxy) : Bool :=
  match a.speed, b.speed with
  | none, none => true
  | none, some _ => false
  | some _, none => true
  | some x, some y => x ≤ y

/-- Insertion into a sorted list (`sorted` is modelled by insertion sort,
which matches Python's stable sort on the `speed` key). -/
def insertSorted (x : Proxy) : List Proxy → List Proxy
  | [] => [x]
  | y :: ys => if speedLE x y then x :: y :: ys else y :: insertSorted x ys

def sortBySpeed : List Proxy → List Proxy
  | [] => []
  | x :: xs => insertSorted x (sortBySpeed xs)

/-- `ProxyManager._update_proxies` (src/Crawler-v02.py:235-250): `working`
is the result of `_test_all_proxies`; an empty working set falls back to the
single direct entry, otherwise the working set sorted by speed. -/
def update_proxies (working : List Proxy) : List Proxy :=
  if working = [] then [directProxy] else sortBySpeed working

/-- Mutable state of `ProxyManager` relevant to `get_proxy`. -/
structure PMState where
  proxies : List Proxy
  currentIndex : Nat
  totalUsed : Nat
  rotations : Nat
deriving DecidableEq

/-- `ProxyManager.get_proxy` (src/Crawler-v02.py:252-268).  `stale` is the
test `datetime.now() - last_update > update_interval`; `working` feeds the
refresh when it runs.  `self.proxies[self.current_index]` is partial in
Python — an out-of-range index raises `IndexError` — which the embedding
surfaces as a `none` first component. -/
def get_proxy (stale : Bool) (working : List Proxy) (st : PMState) :
    Option Proxy × PMState :=
  let st := { st with totalUsed := st.totalUsed + 1 }
  let st := if stale then { st with proxies := update_proxies working } else st
  if st.proxies = [] then (some directProxy, st)
  else
    match st.proxies.get? st.currentIndex with
    | none => (none, st)
    | some p =>
      (some p,
       { st with currentIndex := (st.currentIndex + 1) % st.proxies.length,
                 rotations := st.rotations + 1 })

end CrawlerV02

namespace CrawlerV02

/-!  The BFS crawl loop `EnhancedCrawler.crawl` (src/Crawler-v02.py:608-663)
together with `_fetch_url` (520-562), `_process_url` (593-606) and
`_extract_links` (564-574).

External collaborators are parameters: `Site.fetch` is the outcome of
`_handle_request` for a URL (`some` a response, `none` when all retries
failed), `Site.anchors` is the list of `href` attributes BeautifulSoup finds
in an HTML body, and `digest` is `hashlib.md5(...).hexdigest()` on the
decoded body.  `list(set(links))` in `_extract_links` is modelled by
`List.eraseDups` (one deterministic enumeration of the Python set). -/

structure Response where
  contentType : Str
  body : Str

structure Site where
  fetch : Str → Option Response
  anchors : Str → List Str

/-- `_fetch_url` after `_handle_request` returned (src/Crawler-v02.py:520-557):
reject non-HTML content types, hash the body, drop it when the digest is
already known, otherwise record the digest and hand the body back.  Returns
the optional page body and the updated `content_hashes`. -/
def fetch_url (digest : Str → Str) (site : Site) (hashes : List Str)
    (url : Str) : Option Str × List Str :=
  match site.fetch url with
  | none => (none, hashes)
  | some resp =>
    if ¬ isSubstr "text/html".toList resp.contentType then (none, hashes)
    else
      let h := digest resp.body
      if h ∈ hashes then (none, hashes)
      else (some resp.body, h :: hashes)

/-- `_extract_links` (src/Crawler-v02.py:564-574): normalise every anchor,
keep the valid ones, and dedup through `list(set(...))`. -/
def extract_links (base : Str) (site : Site) (html : Str) : List Str :=
  (((site.anchors html).map (normalize_url base)).filter
    (is_valid_url (urlparse base []).netloc)).eraseDups

/-- `_process_url` (src/Crawler-v02.py:593-606): a downloadable file goes to
the download pipeline and yields no page data; everything else is fetched as
a page. -/
def process_url (digest : Str → Str) (site : Site) (hashes : List Str)
    (url : Str) : Option Str × List Str :=
  if is_downloadable_file url then (none, hashes)
  else fetch_url digest site hashes url

structure CrawlState where
  queue : List Str
  seen : List Str
  hashes : List Str
  processed : List Str
  saved : List Str
deriving DecidableEq

/-- `process_batch` inside `crawl` (src/Crawler-v02.py:616-619): process the
batch URLs in order, threading `content_hashes`, collecting each URL's
result. -/
def process_batch (digest : Str → Str) (site : Site) :
    List Str → List Str → List (Str × Option Str) × List Str
  | hashes, [] => ([], hashes)
  | hashes, url :: rest =>
    let r := process_url digest site hashes url
    let rec' := process_batch digest site r.2 rest
    ((url, r.1) :: rec'.1, rec'.2)

/-- The link enqueueing step (src/Crawler-v02.py:635-638): a link is pushed
and recorded as seen only when it is not already in `seen_urls`. -/
def add_link (s : CrawlState) (link : Str) : CrawlState :=
  if link ∈ s.seen then s
  else { s with queue := s.queue ++ [link], seen := s.seen ++ [link] }

/-- The per-result body of the `for url, data in zip(batch_urls, results)`
loop (src/Crawler-v02.py:629-638): on page data, `_save_data` runs and the
extracted links are enqueued; on `None` nothing happens. -/
def handle_result (base : Str) (site : Site)
    (s : CrawlState) (r : Str × Option Str) : CrawlState :=
  match r.2 with
  | none => s
  | some body =>
    let s := { s with saved := s.saved ++ [r.1] }
    (extract_links base site body).foldl add_link s

/-- One iteration of the `while` loop of `crawl` (src/Crawler-v02.py:621-641):
pop a batch of at most `concurrent_requests` URLs, process it, then save
data and enqueue links result by result. -/
def crawl_step (base : Str) (digest : Str → Str) (site : Site)
    (concurrent_requests : Nat) (s : CrawlState) : CrawlState :=
  let k := min concurrent_requests s.queue.length
  let batch := s.queue.take k
  let pb := process_batch digest site s.hashes batch
  let s' : CrawlState :=
    { queue := s.queue.drop k, seen := s.seen, hashes := pb.2,
      processed := s.processed ++ batch, saved := s.saved }
  pb.1.foldl (handle_result base site) s'

/-- The `while queue and len(self.seen_urls) < self.max_pages` loop of
`crawl`, with explicit fuel (the loop itself need not terminate on an
infinite site graph). -/
def crawl (base : Str) (digest : Str → Str) (site : Site)
    (max_pages concurrent_requests : Nat) : Nat → CrawlState → CrawlState
  | 0, s => s
  | fuel + 1, s =>
    if s.queue ≠ [] ∧ s.seen.length < max_pages then
      crawl base digest site max_pages concurrent_requests fuel
        (crawl_step base digest site concurrent_requests s)
    else s

/-- The initial state of `crawl` (src/Crawler-v02.py:613-614): the queue
holds `base_url` and `seen_urls` already contains it. -/
def initState (base : Str) : CrawlState := ⟨[base], [base], [], [], []⟩

/-- The claiming invariant of the crawl loop: no URL occurs twice across the
dispatched URLs and the frontier, every dispatched or queued URL has been
claimed (is in `seen_urls`), and `seen_urls` holds each URL once. -/
def crawlInv (s : CrawlState) : Prop :=
  (s.processed ++ s.queue).Nodup ∧
  (∀ u ∈ s.processed, u ∈ s.seen) ∧
  (∀ u ∈ s.queue, u ∈ s.seen) ∧
  s.seen.Nodup

end CrawlerV02

namespace CodeVariant

/-!  The classifier of src/Code.py (`FileHandler.get_file_category`,
lines 114-122; identical in src/Crawler5.py:121-129 and, with a smaller
table, src/crawler4.py:90-98).  Unlike src/Crawler-v02.py it computes
`Path(url).suffix` over the whole URL string, not over `urlparse(url).path`. -/

/-- `FileHandler.downloadable_extensions` of src/Code.py (same table as
src/Crawler-v02.py). -/
def downloadable_extensions : List (Str × List Str) :=
  CrawlerV02.downloadable_extensions

/-- `FileHandler.get_file_category` (src/Code.py:114-122):
`ext = Path(url).suffix.lower()` on the full URL. -/
def get_file_category (url : Str) : Option Str :=
  let ext := strLower (pathSuffix url)
  match downloadable_extensions.find? (fun p => decide (ext ∈ p.2)) with
  | some p => some p.1
  | none => if ext ≠ [] then some "other".toList else none

/-- `FileHandler.is_downloadable_file` (src/Code.py:124-126). -/
def is_downloadable_file (url : Str) : Bool :=
  (get_file_category url).isSome

/-- Which pipeline `EnhancedCrawler._process_url` (src/Code.py:330-343)
routes a URL to: the file-download branch or the HTML fetch branch. -/
inductive Route where
  | downloadFile : Str → Route
  | crawlPage : Route
deriving DecidableEq

/-- The dispatch of `_process_url`: a downloadable file (the category is
always `some` when `is_downloadable_file` holds) goes to `_download_file`,
anything else to `_fetch_url`. -/
def process_url_route (url : Str) : Route :=
  match get_file_category url with
  | some cat => .downloadFile cat
  | none => .crawlPage

end CodeVariant

/-- A well-formed crawler seed (`base_url`), as configured in every variant's
`__main__`: an absolute `http`/`https` URL with a nonempty host. -/
def saneBase (base : Str) : Bool :=
  let b := urlparse base []
  (b.scheme = "http".toList ∨ b.scheme = "https".toList) ∧ b.netloc ≠ []

namespace CodeVariant

/-- The category the extension table assigns to a (lowercased) suffix:
the first matching row, `'other'` for an unmatched suffix. -/
def tableCategory (ext : Str) : Str :=
  match downloadable_extensions.find? (fun p => decide (ext ∈ p.2)) with
  | some p => p.1
  | none => "other".toList

end CodeVariant

/-! ## Theorems -/

namespace CrawlerV02

theorem extractStep_eq (acc : Str × Str × Nat) (m : Str × Except Unit Str) :
    extractStep acc m =
      if acc.2.2 < stripLen m.2 then (textOf m, m.1, stripLen m.2) else acc := by
  cases hm : m.2 with
  | error e =>
    simp [extractStep, stripLen, hm]
  | ok t =>
    simp only [extractStep, stripLen, textOf, hm]

theorem maxStripLen_cons (m : Str × Except Unit Str)
    (rest : List (Str × Except Unit Str)) :
    maxStripLen (m :: rest) = max (stripLen m.2) (maxStripLen rest) := rfl

theorem foldl_extractStep (ms : List (Str × Except Unit Str)) :
    ∀ acc : Str × Str × Nat,
      ms.foldl extractStep acc =
        if maxStripLen ms ≤ acc.2.2 then acc
        else ((firstWithLen (maxStripLen ms) ms).1,
              (firstWithLen (maxStripLen ms) ms).2, maxStripLen ms) := by
  induction ms with
  | nil =>
    intro acc
    simp [maxStripLen]
  | cons m rest ih =>
    intro acc
    rw [List.foldl_cons, extractStep_eq, maxStripLen_cons]
    by_cases hA : acc.2.2 < stripLen m.2
    · rw [if_pos hA, ih]
      have hcond : ¬ (max (stripLen m.2) (maxStripLen rest) ≤ acc.2.2) := by
        have := le_max_left (stripLen m.2) (maxStripLen rest)
        omega
      rw [if_neg hcond]
      by_cases hB : maxStripLen rest ≤ stripLen m.2
      · have hmax : max (stripLen m.2) (maxStripLen rest) = stripLen m.2 :=
          max_eq_left hB
        rw [hmax, if_pos hB]
        have : firstWithLen (stripLen m.2) (m :: rest) = (textOf m, m.1) := by
          rw [firstWithLen, if_pos rfl]
        rw [this]
      · have hlt : stripLen m.2 < maxStripLen rest := by omega
        have hmax : max (stripLen m.2) (maxStripLen rest) = maxStripLen rest :=
          max_eq_right (le_of_lt hlt)
        rw [hmax, if_neg hB]
        have hne : ¬ (stripLen m.2 = maxStripLen rest) := by omega
        have : firstWithLen (maxStripLen rest) (m :: rest) =
            firstWithLen (maxStripLen rest) rest := by
          rw [firstWithLen, if_neg hne]
        rw [this]
    · rw [if_neg hA, ih]
      by_cases hB : maxStripLen rest ≤ acc.2.2
      · have hcond : max (stripLen m.2) (maxStripLen rest) ≤ acc.2.2 := by omega
        rw [if_pos hB, if_pos hcond]
      · have hlt : acc.2.2 < maxStripLen rest := by omega
        have hml : stripLen m.2 < maxStripLen rest := by omega
        have hmax : max (stripLen m.2) (maxStripLen rest) = maxStripLen rest :=
          max_eq_right (le_of_lt hml)
        have hcond : ¬ (max (stripLen m.2) (maxStripLen rest) ≤ acc.2.2) := by
          omega
        rw [if_neg hB, if_neg hcond, hmax]
        have hne : ¬ (stripLen m.2 = maxStripLen rest) := by omega
        have : firstWithLen (maxStripLen rest) (m :: rest) =
            firstWithLen (maxStripLen rest) rest := by
          rw [firstWithLen, if_neg hne]
        rw [this]

end CrawlerV02

/-- **C2** (confirmed).  `PDFProcessor.extract_text_from_pdf` invokes every
backend in the fixed declared order (the fold over the method table), a
backend that raises is skipped without aborting the others, and the result
is exactly the spec's "longest wins" rule `extractSpec`: the `(text, name)`
pair of the backend with strictly greatest `strip()` length, ties resolved
in favour of the earlier-declared backend, and `("", "")` when every backend
yields empty stripped text. -/
theorem c2_pdf_longest_wins (methods : List (Str × Except Unit Str)) :
    CrawlerV02.extract_text_from_pdf methods = CrawlerV02.extractSpec methods := by
  unfold CrawlerV02.extract_text_from_pdf CrawlerV02.extractSpec
  rw [CrawlerV02.foldl_extractStep]
  by_cases h0 : CrawlerV02.maxStripLen methods = 0
  · rw [if_pos h0]
    have : CrawlerV02.maxStripLen methods ≤ 0 := le_of_eq h0
    rw [if_pos this]
  · rw [if_neg h0]
    have : ¬ (CrawlerV02.maxStripLen methods ≤ 0) := by omega
    rw [if_neg this]

/-- **C8** (confirmed).  For `FileHandler.get_file_category` of
src/Crawler-v02.py: a URL whose path has no suffix maps to no category (it
stays an HTML page candidate); a URL whose path has a non-empty suffix maps
to exactly one category drawn from the fixed table; and a non-empty suffix
that appears in no table row maps to `'other'`. -/
theorem c8_file_category_total (url : Str) :
    (strLower (pathSuffix ((urlparse url []).path)) = [] →
      CrawlerV02.get_file_category url = none) ∧
    (strLower (pathSuffix ((urlparse url []).path)) ≠ [] →
      ∃ c, CrawlerV02.get_file_category url = some c ∧
        c ∈ CrawlerV02.downloadable_extensions.map Prod.fst ∧
        ∀ c2, CrawlerV02.get_file_category url = some c2 → c2 = c) ∧
    (strLower (pathSuffix ((urlparse url []).path)) ≠ [] →
      (∀ p ∈ CrawlerV02.downloadable_extensions,
          strLower (pathSuffix ((urlparse url []).path)) ∉ p.2) →
      CrawlerV02.get_file_category url = some "other".toList) := by
  have hunfold : CrawlerV02.get_file_category url =
      match CrawlerV02.downloadable_extensions.find?
          (fun p => decide (strLower (pathSuffix ((urlparse url []).path)) ∈ p.2)) with
      | some p => some p.1
      | none =>
        if strLower (pathSuffix ((urlparse url []).path)) ≠ [] then
          some "other".toList
        else none := rfl
  refine ⟨?_, ?_, ?_⟩
  · intro hext
    rw [hunfold, hext]
    decide
  · intro hext
    rw [hunfold]
    cases hf : CrawlerV02.downloadable_extensions.find?
        (fun p => decide (strLower (pathSuffix ((urlparse url []).path)) ∈ p.2)) with
    | some p =>
      refine ⟨p.1, rfl, ?_, ?_⟩
      · exact List.mem_map_of_mem Prod.fst (List.mem_of_find?_eq_some hf)
      · intro c2 hc2
        exact (Option.some.inj hc2).symm
    | none =>
      rw [if_pos hext]
      refine ⟨"other".toList, rfl, by decide, ?_⟩
      intro c2 hc2
      exact (Option.some.inj hc2).symm
  · intro hext hno
    have hf : CrawlerV02.downloadable_extensions.find?
        (fun p => decide (strLower (pathSuffix ((urlparse url []).path)) ∈ p.2)) = none := by
      apply List.find?_eq_none.mpr
      intro x hx
      simpa using hno x hx
    rw [hunfold, hf, if_pos hext]

/-- Witness for `c8_file_category_total`: the suffix `.xyz` is present and in
no table row, so the URL is classified `'other'`; a suffix-free URL is
classified `none`. -/
theorem c8_file_category_total_witness :
    CrawlerV02.get_file_category "https://example.com/f.xyz".toList =
      some "other".toList ∧
    CrawlerV02.get_file_category "https://example.com/dir".toList = none := by
  constructor
  · exact (c8_file_category_total "https://example.com/f.xyz".toList).2.2
      (by decide) (by decide)
  · exact (c8_file_category_total "https://example.com/dir".toList).1 (by decide)

theorem rsplitLast_append {c : Char} (a : Str) {b : Str} (hb : c ∉ b) :
    rsplitLast c (a ++ c :: b) = some (a, b) := by
  unfold rsplitLast
  have hrev : (a ++ c :: b).reverse = b.reverse ++ c :: a.reverse := by
    simp
  rw [hrev, splitFirst_append a.reverse (by simpa using hb)]
  simp

/-- **C10, counterexample.**  The claim says every empty-path URL whose
hostname contains a dot is classified as category `'other'`; but in
src/Code.py `Path("https://example.py").suffix` is `.py`, which the table
maps to `'code'`, not `'other'`. -/
theorem c10_counterexample :
    CodeVariant.get_file_category "https://example.py".toList =
      some "code".toList ∧
    CodeVariant.get_file_category "https://example.py".toList ≠
      some "other".toList := by
  constructor
  · decide
  · decide

/-- **C10** (corrected).  In the variants whose classifier computes
`Path(url).suffix` over the full URL string (src/Code.py, src/Crawler5.py,
src/crawler4.py), a URL `scheme://a.b` with empty path, where the hostname's
last dotted segment `b` is nonempty and dot-free and `a` is nonempty, is
assigned `.b` as its suffix, is classified as a downloadable file — of the
table's category for that suffix when present (e.g. `.py` → `code`) and of
category `'other'` otherwise (e.g. `.com`) — and is routed to the download
pipeline instead of being crawled as an HTML page. -/
theorem c10_bare_domain_is_file (scheme a b : Str)
    (hsch : '/' ∉ scheme) (ha : a ≠ []) (hasl : '/' ∉ a)
    (hb : b ≠ []) (hbd : '.' ∉ b) (hbsl : '/' ∉ b) :
    pathSuffix (scheme ++ ':' :: '/' :: '/' :: (a ++ '.' :: b)) = '.' :: b ∧
    CodeVariant.get_file_category (scheme ++ ':' :: '/' :: '/' :: (a ++ '.' :: b)) =
      some (CodeVariant.tableCategory (strLower ('.' :: b))) ∧
    CodeVariant.is_downloadable_file (scheme ++ ':' :: '/' :: '/' :: (a ++ '.' :: b)) = true ∧
    CodeVariant.process_url_route (scheme ++ ':' :: '/' :: '/' :: (a ++ '.' :: b)) =
      CodeVariant.Route.downloadFile (CodeVariant.tableCategory (strLower ('.' :: b))) := by
  have hsplit : splitAll '/' (scheme ++ ':' :: '/' :: '/' :: (a ++ '.' :: b)) =
      [scheme ++ [':'], [], a ++ '.' :: b] := by
    have e1 : scheme ++ ':' :: '/' :: '/' :: (a ++ '.' :: b) =
        (scheme ++ [':']) ++ '/' :: ([] ++ '/' :: (a ++ '.' :: b)) := by simp
    have hs1 : '/' ∉ scheme ++ [':'] := by
      intro hmem
      rcases List.mem_append.mp hmem with h | h
      · exact hsch h
      · simp at h
    have hhost : '/' ∉ a ++ '.' :: b := by
      intro hmem
      rcases List.mem_append.mp hmem with h | h
      · exact hasl h
      · rcases List.mem_cons.mp h with h | h
        · exact absurd h.symm (by decide)
        · exact hbsl h
    rw [e1, splitAll_append _ hs1, splitAll_append _ (by simp),
        splitAll_not_mem hhost]
  have hname : pathName (scheme ++ ':' :: '/' :: '/' :: (a ++ '.' :: b)) =
      a ++ '.' :: b := by
    unfold pathName
    rw [hsplit]
    have hk1 : (decide (scheme ++ [':'] ≠ [] ∧ scheme ++ [':'] ≠ ['.'])) = true := by
      have h1 : scheme ++ [':'] ≠ [] := by simp
      have h2 : scheme ++ [':'] ≠ ['.'] := by
        intro h
        have := congrArg List.getLast? h
        rw [List.getLast?_concat] at this
        simp at this
      simp [h1, h2]
    have hk3 : (decide (a ++ '.' :: b ≠ [] ∧ a ++ '.' :: b ≠ ['.'])) = true := by
      have h1 : a ++ '.' :: b ≠ [] := by simp
      have h2 : a ++ '.' :: b ≠ ['.'] := by
        intro h
        have hlen := congrArg List.length h
        simp only [List.length_append, List.length_cons, List.length_nil] at hlen
        have hb0 : b.length = 0 := by omega
        exact hb (List.length_eq_zero.mp hb0)
      simp [h1, h2]
    simp only [List.filter]
    rw [hk1, hk3]
    simp [List.filter]
  have hsuffix : pathSuffix (scheme ++ ':' :: '/' :: '/' :: (a ++ '.' :: b)) =
      '.' :: b := by
    have hps : pathSuffix (scheme ++ ':' :: '/' :: '/' :: (a ++ '.' :: b)) =
        (match rsplitLast '.' (pathName (scheme ++ ':' :: '/' :: '/' :: (a ++ '.' :: b))) with
         | none => ([] : Str)
         | some (x, y) => if x ≠ [] ∧ y ≠ [] then '.' :: y else []) := rfl
    rw [hps, hname, rsplitLast_append a hbd]
    show (if a ≠ [] ∧ b ≠ [] then '.' :: b else []) = '.' :: b
    exact if_pos ⟨ha, hb⟩
  have hcat : CodeVariant.get_file_category
      (scheme ++ ':' :: '/' :: '/' :: (a ++ '.' :: b)) =
      some (CodeVariant.tableCategory (strLower ('.' :: b))) := by
    have hunfold : CodeVariant.get_file_category
        (scheme ++ ':' :: '/' :: '/' :: (a ++ '.' :: b)) =
        match CodeVariant.downloadable_extensions.find?
            (fun p => decide (strLower (pathSuffix
              (scheme ++ ':' :: '/' :: '/' :: (a ++ '.' :: b))) ∈ p.2)) with
        | some p => some p.1
        | none =>
          if strLower (pathSuffix (scheme ++ ':' :: '/' :: '/' :: (a ++ '.' :: b))) ≠ []
          then some "other".toList else none := rfl
    rw [hunfold, hsuffix]
    unfold CodeVariant.tableCategory
    cases hf : CodeVariant.downloadable_extensions.find?
        (fun p => decide (strLower ('.' :: b) ∈ p.2)) with
    | some p => rfl
    | none =>
      show (if strLower ('.' :: b) ≠ [] then some "other".toList else none) =
        some "other".toList
      have hne : strLower ('.' :: b) ≠ [] := by simp [strLower]
      exact if_pos hne
  refine ⟨hsuffix, hcat, ?_, ?_⟩
  · unfold CodeVariant.is_downloadable_file
    rw [hcat]
    rfl
  · unfold CodeVariant.process_url_route
    rw [hcat]

/-- Witness for `c10_bare_domain_is_file`: the bare domain
`https://example.com` gets suffix `.com` and lands in the download pipeline
with category `'other'`. -/
theorem c10_bare_domain_is_file_witness :
    pathSuffix "https://example.com".toList = ".com".toList ∧
    CodeVariant.get_file_category "https://example.com".toList =
      some "other".toList ∧
    CodeVariant.process_url_route "https://example.com".toList =
      CodeVariant.Route.downloadFile "other".toList := by
  obtain ⟨h1, h2, h3, h4⟩ := c10_bare_domain_is_file "https".toList "example".toList
    "com".toList (by decide) (by decide) (by decide) (by decide) (by decide) (by decide)
  exact ⟨h1, h2.trans (by decide), h4.trans (by decide)⟩

namespace CrawlerV02

theorem handleRequestGo_fail (oracle : Nat → Outcome) (url : Str)
    (mr r a : Nat) (log : FetchLog) (hfa : failsAt oracle a = true) :
    handleRequestGo oracle url mr (r + 1) a log =
      handleRequestGo oracle url mr r (a + 1) (failStep url mr a log) := by
  rw [handleRequestGo]
  cases ho : oracle a with
  | transport => rfl
  | resp s =>
    have hs : ¬ (s < 400) := by
      rw [failsAt, ho] at hfa
      simp at hfa
      omega
    exact if_neg hs

theorem handleRequestGo_succeed (oracle : Nat → Outcome) (url : Str)
    (mr r a s : Nat) (log : FetchLog)
    (ho : oracle a = Outcome.resp s) (hs : s < 400) :
    handleRequestGo oracle url mr (r + 1) a log =
      ({ log with attempts := log.attempts + 1,
                  results := log.results ++ [true] }, some s) := by
  rw [handleRequestGo, ho]
  exact if_pos hs

theorem handleRequestGo_attempts_le (oracle : Nat → Outcome) (url : Str)
    (mr : Nat) :
    ∀ (r a : Nat) (log : FetchLog),
      (handleRequestGo oracle url mr r a log).1.attempts ≤ log.attempts + r := by
  intro r
  induction r with
  | zero => intro a log; simp [handleRequestGo]
  | succ r ih =>
    intro a log
    by_cases hfa : failsAt oracle a = true
    · rw [handleRequestGo_fail oracle url mr r a log hfa]
      have h1 := ih (a + 1) (failStep url mr a log)
      have h2 : (failStep url mr a log).attempts = log.attempts + 1 := rfl
      omega
    · have : ∃ s, oracle a = Outcome.resp s ∧ s < 400 := by
        rw [failsAt] at hfa
        cases ho : oracle a with
        | transport => rw [ho] at hfa; simp at hfa
        | resp s =>
          rw [ho] at hfa
          simp at hfa
          exact ⟨s, rfl, by omega⟩
      obtain ⟨s, ho, hs⟩ := this
      rw [handleRequestGo_succeed oracle url mr r a s log ho hs]
      simp

theorem handleRequestGo_all_fail (oracle : Nat → Outcome) (url : Str)
    (mr : Nat) :
    ∀ (r a : Nat) (log : FetchLog), a + r = mr →
      (∀ i, a ≤ i → i < mr → failsAt oracle i = true) →
      handleRequestGo oracle url mr r a log =
        ({ attempts := log.attempts + r,
           results := log.results ++ List.replicate r false,
           sleeps := log.sleeps ++ List.range' (a + 1) r,
           failed := log.failed ++ (if 0 < r then [url] else []),
           errors := log.errors + (if 0 < r then 1 else 0) }, none) := by
  intro r
  induction r with
  | zero =>
    intro a log _ _
    cases log
    simp [handleRequestGo]
  | succ r ih =>
    intro a log hmr hfail
    have hfa : failsAt oracle a = true := hfail a le_rfl (by omega)
    rw [handleRequestGo_fail oracle url mr r a log hfa,
        ih (a + 1) (failStep url mr a log) (by omega)
          (fun i hi hi2 => hfail i (by omega) hi2)]
    simp only [failStep]
    by_cases hr : r = 0
    · subst hr
      have hlast : a = mr - 1 := by omega
      subst hlast
      simp [List.range'_succ]
    · have hlast : ¬ (a = mr - 1) := by omega
      rw [if_neg hlast, if_neg hlast]
      have h0r : 0 < r := Nat.pos_of_ne_zero hr
      rw [if_pos h0r, if_pos (Nat.succ_pos r)]
      refine Prod.ext ?_ rfl
      simp [List.range'_succ, List.replicate_succ]
      omega

theorem handleRequestGo_success (oracle : Nat → Outcome) (url : Str)
    (mr : Nat) :
    ∀ (r a k s : Nat) (log : FetchLog), a + r = mr → k < r →
      (∀ j, j < k → failsAt oracle (a + j) = true) →
      oracle (a + k) = Outcome.resp s → s < 400 →
      handleRequestGo oracle url mr r a log =
        ({ attempts := log.attempts + k + 1,
           results := log.results ++ List.replicate k false ++ [true],
           sleeps := log.sleeps ++ List.range' (a + 1) k,
           failed := log.failed,
           errors := log.errors }, some s) := by
  intro r
  induction r with
  | zero => intro a k s log _ hk; omega
  | succ r ih =>
    intro a k s log hmr hk hfail hok hs
    cases k with
    | zero =>
      simp only [Nat.add_zero] at hok
      rw [handleRequestGo_succeed oracle url mr r a s log hok hs]
      cases log
      simp
    | succ k =>
      have hfa : failsAt oracle a = true := by
        have := hfail 0 (Nat.succ_pos k)
        simpa using this
      have hok2 : oracle (a + 1 + k) = Outcome.resp s := by
        have he : a + 1 + k = a + (k + 1) := by omega
        rw [he]; exact hok
      have hfail2 : ∀ j, j < k → failsAt oracle (a + 1 + j) = true := by
        intro j hj
        have he : a + 1 + j = a + (j + 1) := by omega
        rw [he]
        exact hfail (j + 1) (by omega)
      rw [handleRequestGo_fail oracle url mr r a log hfa,
          ih (a + 1) k s (failStep url mr a log) (by omega) (by omega)
            hfail2 hok2 hs]
      have hlast : ¬ (a = mr - 1) := by omega
      simp only [failStep, if_neg hlast]
      refine Prod.ext ?_ rfl
      simp [List.range'_succ, List.replicate_succ]
      omega

end CrawlerV02

/-- **C3, counterexample.**  The claim says a 404 response is terminal on its
first occurrence and never retried, i.e. a fetch whose first attempt
returns 404 performs exactly one attempt.  In
`EnhancedCrawler._handle_request` (src/Crawler-v02.py:385-410) the
`response.raise_for_status()` exception for a 404 is caught by the generic
`except` and retried like every other failure: with `max_retries = 3` and
every attempt answering 404, the code performs 3 attempts (sleeping after
each), adds the URL to the failed set, and returns `None`. -/
theorem c3_counterexample :
    CrawlerV02.handle_request (fun _ => CrawlerV02.Outcome.resp 404)
      "https://site/missing".toList 3 =
      ({ attempts := 3, results := [false, false, false], sleeps := [1, 2, 3],
         failed := ["https://site/missing".toList], errors := 1 }, none) ∧
    ¬ ((3 : Nat) = 1) := by
  constructor
  · decide
  · decide

/-- **C3** (corrected).  For every URL, `_handle_request` performs at most
`max_retries` attempts; every failed attempt — transport error, timeout,
5xx, and every 4xx **including 404** — is retried, sleeping
`request_delay × attempt_number` after each failure (multipliers
`1, 2, ...`); when all attempts fail the URL is added to the failed set, the
error counter is incremented, and the caller receives `None`; a status
< 400 returns immediately with no failure bookkeeping. -/
theorem c3_retry_policy (oracle : Nat → CrawlerV02.Outcome) (url : Str)
    (max_retries : Nat) :
    ((CrawlerV02.handle_request oracle url max_retries).1.attempts ≤ max_retries) ∧
    ((∀ i, i < max_retries → CrawlerV02.failsAt oracle i = true) →
      CrawlerV02.handle_request oracle url max_retries =
        ({ attempts := max_retries,
           results := List.replicate max_retries false,
           sleeps := List.range' 1 max_retries,
           failed := if 0 < max_retries then [url] else [],
           errors := if 0 < max_retries then 1 else 0 }, none)) ∧
    (∀ k s, k < max_retries →
      (∀ j, j < k → CrawlerV02.failsAt oracle j = true) →
      oracle k = CrawlerV02.Outcome.resp s → s < 400 →
      CrawlerV02.handle_request oracle url max_retries =
        ({ attempts := k + 1,
           results := List.replicate k false ++ [true],
           sleeps := List.range' 1 k,
           failed := [],
           errors := 0 }, some s)) := by
  refine ⟨?_, ?_, ?_⟩
  · have := CrawlerV02.handleRequestGo_attempts_le oracle url max_retries
      max_retries 0 ⟨0, [], [], [], 0⟩
    simpa [CrawlerV02.handle_request] using this
  · intro hfail
    have := CrawlerV02.handleRequestGo_all_fail oracle url max_retries
      max_retries 0 ⟨0, [], [], [], 0⟩ (by omega)
      (fun i _ hi2 => hfail i hi2)
    simpa [CrawlerV02.handle_request] using this
  · intro k s hk hfail hok hs
    have := CrawlerV02.handleRequestGo_success oracle url max_retries
      max_retries 0 k s ⟨0, [], [], [], 0⟩ (by omega) hk
      (fun j hj => by simpa using hfail j hj) (by simpa using hok) hs
    simpa [CrawlerV02.handle_request] using this

/-- Witness for `c3_retry_policy`: with attempts answering 500, transport
error, then 200, the fetch succeeds on the third attempt with back-off
sleeps `1, 2`; and with every attempt answering 404 the fetch exhausts all
3 attempts. -/
theorem c3_retry_policy_witness :
    CrawlerV02.handle_request
      (fun i => if i = 0 then CrawlerV02.Outcome.resp 500
        else if i = 1 then CrawlerV02.Outcome.transport
        else CrawlerV02.Outcome.resp 200) "https://site/page".toList 3 =
      ({ attempts := 3, results := [false, false, true], sleeps := [1, 2],
         failed := [], errors := 0 }, some 200) ∧
    CrawlerV02.handle_request (fun _ => CrawlerV02.Outcome.resp 404)
      "https://site/page".toList 3 =
      ({ attempts := 3, results := [false, false, false], sleeps := [1, 2, 3],
         failed := ["https://site/page".toList], errors := 1 }, none) := by
  constructor
  · have h := (c3_retry_policy
      (fun i => if i = 0 then CrawlerV02.Outcome.resp 500
        else if i = 1 then CrawlerV02.Outcome.transport
        else CrawlerV02.Outcome.resp 200) "https://site/page".toList 3).2.2
      2 200 (by decide)
      (by decide) (by decide) (by decide)
    rw [h]
    rfl
  · have h := (c3_retry_policy (fun _ => CrawlerV02.Outcome.resp 404)
      "https://site/page".toList 3).2.1 (by decide)
    rw [h]
    rfl

namespace CrawlerV02

theorem insertSorted_length (x : Proxy) (l : List Proxy) :
    (insertSorted x l).length = l.length + 1 := by
  induction l with
  | nil => rfl
  | cons y ys ih =>
    rw [insertSorted]
    by_cases h : speedLE x y
    · rw [if_pos h]; rfl
    · rw [if_neg h]
      simp [ih]

theorem sortBySpeed_length (l : List Proxy) :
    (sortBySpeed l).length = l.length := by
  induction l with
  | nil => rfl
  | cons x xs ih =>
    rw [sortBySpeed, insertSorted_length, ih]
    rfl

theorem load_proxies_ne_nil (file : Except Unit (Option (List Str))) :
    load_proxies file ≠ [] := by
  cases file with
  | error e => simp [load_proxies]
  | ok o =>
    cases o with
    | none => simp [load_proxies]
    | some lines =>
      rw [load_proxies]
      by_cases h : lines.filterMap parseProxyLine = []
      · rw [if_pos h]; simp
      · rw [if_neg h]; exact h

theorem update_proxies_ne_nil (working : List Proxy) :
    update_proxies working ≠ [] := by
  rw [update_proxies]
  by_cases h : working = []
  · rw [if_pos h]; simp
  · rw [if_neg h]
    intro hcontra
    have := sortBySpeed_length working
    rw [hcontra] at this
    exact h (List.length_eq_zero.mp this.symm)

theorem get_proxy_state_proxies (stale : Bool) (working : List Proxy)
    (st : PMState) :
    (get_proxy stale working st).2.proxies =
      if stale then update_proxies working else st.proxies := by
  simp only [get_proxy]
  cases stale <;> simp only [Bool.false_eq_true, if_false, if_true] <;>
    split <;> first | rfl | (split <;> rfl)

theorem get_proxy_isSome (stale : Bool) (working : List Proxy) (st : PMState)
    (h : st.currentIndex <
      (if stale then update_proxies working else st.proxies).length) :
    ((get_proxy stale working st).1).isSome = true := by
  simp only [get_proxy]
  cases stale with
  | false =>
    simp only [Bool.false_eq_true, if_false] at h ⊢
    split
    · rfl
    · split
      · next hg =>
        rw [List.get?_eq_none] at hg
        omega
      · rfl
  | true =>
    simp only [if_true] at h ⊢
    split
    · rfl
    · split
      · next hg =>
        rw [List.get?_eq_none] at hg
        omega
      · rfl

end CrawlerV02

/-- **C9, counterexample.**  The claim says `get_proxy` always returns an
entry.  But `_update_proxies` does not reset `current_index`; after one
rotation through a two-proxy list (`current_index = 1`), a staleness-driven
refresh in which no proxy passes the probe shrinks the list to the single
direct entry, and `self.proxies[self.current_index]` is then an
out-of-range access (`IndexError` in Python, `none` in the embedding). -/
theorem c9_counterexample :
    (CrawlerV02.get_proxy false []
      ⟨CrawlerV02.load_proxies
        (.ok (some ["1.1.1.1:80:u:p".toList, "1.1.1.2:81:u:p".toList])),
       0, 0, 0⟩).1.isSome = true ∧
    (CrawlerV02.get_proxy true []
      ((CrawlerV02.get_proxy false []
        ⟨CrawlerV02.load_proxies
          (.ok (some ["1.1.1.1:80:u:p".toList, "1.1.1.2:81:u:p".toList])),
         0, 0, 0⟩).2)).1 = none := by
  constructor
  · decide
  · decide

/-- **C9** (corrected).  The proxy list is non-empty at every point after
construction: `_load_proxies` falls back to the single direct entry when the
file is absent, unreadable, or yields no well-formed `ip:port:user:pass`
line, `_update_proxies` falls back likewise when no proxy passes the health
probe, and `get_proxy` preserves non-emptiness — so the modulo arithmetic in
`get_proxy` never divides by zero.  However, `get_proxy` returns an entry
only when `current_index` is within the (possibly just refreshed) list;
since a refresh does not reset the index, an out-of-range index after a
shrinking refresh raises instead of returning (see `c9_counterexample`). -/
theorem c9_proxy_list_nonempty (file : Except Unit (Option (List Str)))
    (stale : Bool) (working : List CrawlerV02.Proxy) (st : CrawlerV02.PMState) :
    CrawlerV02.load_proxies file ≠ [] ∧
    CrawlerV02.update_proxies working ≠ [] ∧
    (st.proxies ≠ [] → (CrawlerV02.get_proxy stale working st).2.proxies ≠ []) ∧
    (st.currentIndex <
        (if stale then CrawlerV02.update_proxies working else st.proxies).length →
      ((CrawlerV02.get_proxy stale working st).1).isSome = true) := by
  refine ⟨CrawlerV02.load_proxies_ne_nil file,
          CrawlerV02.update_proxies_ne_nil working, ?_, ?_⟩
  · intro hne
    rw [CrawlerV02.get_proxy_state_proxies]
    cases stale with
    | false => simpa using hne
    | true => simpa using CrawlerV02.update_proxies_ne_nil working
  · exact CrawlerV02.get_proxy_isSome stale working st

/-- Witness for `c9_proxy_list_nonempty`: an unreadable file still yields the
direct entry, and a fresh in-range state yields a proxy. -/
theorem c9_proxy_list_nonempty_witness :
    CrawlerV02.load_proxies (.error ()) ≠ [] ∧
    ((CrawlerV02.get_proxy false [] ⟨[CrawlerV02.directProxy], 0, 0, 0⟩).1).isSome = true := by
  have h := c9_proxy_list_nonempty (.error ()) false []
    ⟨[CrawlerV02.directProxy], 0, 0, 0⟩
  exact ⟨h.1, h.2.2.2 (by decide)⟩

namespace CrawlerV02

theorem add_link_inv {s : CrawlState} (link : Str) (h : crawlInv s) :
    crawlInv (add_link s link) ∧
    (add_link s link).processed = s.processed ∧
    (∀ u ∈ s.seen, u ∈ (add_link s link).seen) := by
  obtain ⟨h1, h2, h3, h4⟩ := h
  rw [add_link]
  by_cases hmem : link ∈ s.seen
  · rw [if_pos hmem]
    exact ⟨⟨h1, h2, h3, h4⟩, rfl, fun u hu => hu⟩
  · rw [if_neg hmem]
    have hnot : link ∉ s.processed ++ s.queue := by
      intro hm
      rcases List.mem_append.mp hm with hm | hm
      · exact hmem (h2 link hm)
      · exact hmem (h3 link hm)
    refine ⟨⟨?_, ?_, ?_, ?_⟩, rfl, ?_⟩
    · show (s.processed ++ (s.queue ++ [link])).Nodup
      rw [← List.append_assoc]
      exact ((List.perm_append_singleton link (s.processed ++ s.queue)).nodup_iff).mpr
        (List.nodup_cons.mpr ⟨hnot, h1⟩)
    · intro u hu
      exact List.mem_append_left _ (h2 u hu)
    · intro u hu
      rcases List.mem_append.mp hu with hu | hu
      · exact List.mem_append_left _ (h3 u hu)
      · exact List.mem_append_right _ hu
    · exact ((List.perm_append_singleton link s.seen).nodup_iff).mpr
        (List.nodup_cons.mpr ⟨hmem, h4⟩)
    · intro u hu
      exact List.mem_append_left _ hu

theorem foldl_add_link_inv (links : List Str) :
    ∀ s : CrawlState, crawlInv s →
      crawlInv (links.foldl add_link s) ∧
      (links.foldl add_link s).processed = s.processed := by
  induction links with
  | nil => intro s h; exact ⟨h, rfl⟩
  | cons l ls ih =>
    intro s h
    rw [List.foldl_cons]
    obtain ⟨hinv, hproc, _⟩ := add_link_inv l h
    obtain ⟨hinv2, hproc2⟩ := ih (add_link s l) hinv
    exact ⟨hinv2, hproc2.trans hproc⟩

theorem handle_result_inv (base : Str) (site : Site) (r : Str × Option Str) :
    ∀ s : CrawlState, crawlInv s →
      crawlInv (handle_result base site s r) ∧
      (handle_result base site s r).processed = s.processed := by
  intro s h
  rw [handle_result]
  cases r.2 with
  | none => exact ⟨h, rfl⟩
  | some body =>
    have hsaved : crawlInv { s with saved := s.saved ++ [r.1] } := h
    exact foldl_add_link_inv (extract_links base site body) _ hsaved

theorem foldl_handle_result_inv (base : Str) (site : Site)
    (results : List (Str × Option Str)) :
    ∀ s : CrawlState, crawlInv s →
      crawlInv (results.foldl (handle_result base site) s) ∧
      (results.foldl (handle_result base site) s).processed = s.processed := by
  induction results with
  | nil => intro s h; exact ⟨h, rfl⟩
  | cons r rs ih =>
    intro s h
    rw [List.foldl_cons]
    obtain ⟨hinv, hproc⟩ := handle_result_inv base site r s h
    obtain ⟨hinv2, hproc2⟩ := ih _ hinv
    exact ⟨hinv2, hproc2.trans hproc⟩

theorem crawl_step_inv (base : Str) (digest : Str → Str) (site : Site)
    (cr : Nat) (s : CrawlState) (h : crawlInv s) :
    crawlInv (crawl_step base digest site cr s) := by
  obtain ⟨h1, h2, h3, h4⟩ := h
  rw [crawl_step]
  apply (foldl_handle_result_inv base site _ _ ?_).1
  have hsplit : s.queue =
      s.queue.take (min cr s.queue.length) ++ s.queue.drop (min cr s.queue.length) :=
    (List.take_append_drop _ s.queue).symm
  refine ⟨?_, ?_, ?_, h4⟩
  · show (s.processed ++ s.queue.take (min cr s.queue.length) ++
      s.queue.drop (min cr s.queue.length)).Nodup
    rw [List.append_assoc, ← hsplit]
    exact h1
  · intro u hu
    rcases List.mem_append.mp hu with hu | hu
    · exact h2 u hu
    · exact h3 u (List.mem_of_mem_take hu)
  · intro u hu
    exact h3 u (List.mem_of_mem_drop hu)

theorem crawl_inv (base : Str) (digest : Str → Str) (site : Site)
    (mp cr : Nat) :
    ∀ (fuel : Nat) (s : CrawlState), crawlInv s →
      crawlInv (crawl base digest site mp cr fuel s) := by
  intro fuel
  induction fuel with
  | zero => intro s h; exact h
  | succ fuel ih =>
    intro s h
    rw [crawl]
    by_cases hc : s.queue ≠ [] ∧ s.seen.length < mp
    · rw [if_pos hc]
      exact ih _ (crawl_step_inv base digest site cr s h)
    · rw [if_neg hc]
      exact h

end CrawlerV02

/-- **C1** (confirmed).  In the crawl loop of src/Crawler-v02.py, a link
extracted from a page is pushed onto the frontier only when it is not
already in `seen_urls`, and it is inserted into `seen_urls` at the moment it
is enqueued (both visible in `add_link`).  Consequently, over any run of the
loop from the initial state, every URL is claimed into `seen_urls` at most
once (`seen` holds no duplicates) and every URL is dispatched to
`_process_url` at most once (the trace of dispatched URLs holds no
duplicates). -/
theorem c1_at_most_once_claim (base : Str) (digest : Str → Str)
    (site : CrawlerV02.Site) (max_pages concurrent_requests fuel : Nat) :
    (CrawlerV02.crawl base digest site max_pages concurrent_requests fuel
      (CrawlerV02.initState base)).processed.Nodup ∧
    (CrawlerV02.crawl base digest site max_pages concurrent_requests fuel
      (CrawlerV02.initState base)).seen.Nodup := by
  have hinit : CrawlerV02.crawlInv (CrawlerV02.initState base) := by
    refine ⟨?_, ?_, ?_, ?_⟩
    · simp [CrawlerV02.initState]
    · intro u hu
      simp [CrawlerV02.initState] at hu
    · intro u hu
      simp [CrawlerV02.initState] at hu ⊢
      exact hu
    · simp [CrawlerV02.initState]
  obtain ⟨h1, _, _, h4⟩ := CrawlerV02.crawl_inv base digest site max_pages
    concurrent_requests fuel (CrawlerV02.initState base) hinit
  exact ⟨h1.of_append_left, h4⟩

/-- **C4** (confirmed).  In `_fetch_url` of src/Crawler-v02.py, an HTML page
whose body digest is already in `content_hashes` is discarded: the fetch
yields no page data and leaves the hash set unchanged, and the loop body
(`handle_result`) on a `None` result is the identity on the crawl state —
so nothing is saved, no outbound links are extracted or enqueued, and the
URL stays exactly where it was in `seen_urls` (it remains claimed).  The
first page bearing a given digest inserts that digest into the set and is
processed normally. -/
theorem c4_duplicate_body_dropped (base : Str) (digest : Str → Str)
    (site : CrawlerV02.Site) (hashes : List Str) (url : Str)
    (resp : CrawlerV02.Response) (hf : site.fetch url = some resp)
    (hhtml : CrawlerV02.isSubstr "text/html".toList resp.contentType = true) :
    (digest resp.body ∈ hashes →
      CrawlerV02.fetch_url digest site hashes url = (none, hashes)) ∧
    (digest resp.body ∉ hashes →
      CrawlerV02.fetch_url digest site hashes url =
        (some resp.body, digest resp.body :: hashes)) ∧
    (∀ s : CrawlerV02.CrawlState,
      CrawlerV02.handle_result base site s (url, none) = s) := by
  refine ⟨?_, ?_, ?_⟩
  · intro hmem
    simp [CrawlerV02.fetch_url, hf, hhtml, hmem]
  · intro hmem
    simp [CrawlerV02.fetch_url, hf, hmem]
    exact hhtml
  · intro s
    rfl

/-- Witness for `c4_duplicate_body_dropped`: a site whose one page carries an
already-hashed body; the fetch is dropped with the hash set unchanged, and
the loop body is the identity. -/
theorem c4_duplicate_body_dropped_witness :
    CrawlerV02.fetch_url (fun s => s)
      ⟨fun u => if u = "https://s/a".toList
          then some ⟨"text/html; charset=utf-8".toList, "BODY".toList⟩ else none,
       fun _ => []⟩
      ["BODY".toList] "https://s/a".toList = (none, ["BODY".toList]) ∧
    CrawlerV02.handle_result "https://s".toList
      ⟨fun u => if u = "https://s/a".toList
          then some ⟨"text/html; charset=utf-8".toList, "BODY".toList⟩ else none,
       fun _ => []⟩
      (CrawlerV02.initState "https://s".toList) ("https://s/a".toList, none) =
      CrawlerV02.initState "https://s".toList := by
  have h := c4_duplicate_body_dropped "https://s".toList (fun s => s)
    ⟨fun u => if u = "https://s/a".toList
        then some ⟨"text/html; charset=utf-8".toList, "BODY".toList⟩ else none,
     fun _ => []⟩
    ["BODY".toList] "https://s/a".toList
    ⟨"text/html; charset=utf-8".toList, "BODY".toList⟩
    rfl (by decide)
  exact ⟨h.1 (by decide), h.2.2 (CrawlerV02.initState "https://s".toList)⟩

/-- **C5, counterexample.**  The claim says the number of claimed (seen)
URLs never exceeds `max_pages` at termination.  But the loop checks the cap
only at the top of an iteration, and all links found in a batch are claimed
without re-checking: on a site whose seed page links to three pages, with
`max_pages = 2`, the crawl terminates (larger fuel changes nothing) with 4
claimed URLs. -/
theorem c5_counterexample :
    CrawlerV02.crawl "https://s".toList (fun s => s)
      ⟨fun u => if u = "https://s".toList
          then some ⟨"text/html".toList, "B".toList⟩ else none,
       fun b => if b = "B".toList
          then ["https://s/a1".toList, "https://s/a2".toList, "https://s/a3".toList]
          else []⟩
      2 5 50 (CrawlerV02.initState "https://s".toList) =
    CrawlerV02.crawl "https://s".toList (fun s => s)
      ⟨fun u => if u = "https://s".toList
          then some ⟨"text/html".toList, "B".toList⟩ else none,
       fun b => if b = "B".toList
          then ["https://s/a1".toList, "https://s/a2".toList, "https://s/a3".toList]
          else []⟩
      2 5 1 (CrawlerV02.initState "https://s".toList) ∧
    (CrawlerV02.crawl "https://s".toList (fun s => s)
      ⟨fun u => if u = "https://s".toList
          then some ⟨"text/html".toList, "B".toList⟩ else none,
       fun b => if b = "B".toList
          then ["https://s/a1".toList, "https://s/a2".toList, "https://s/a3".toList]
          else []⟩
      2 5 50 (CrawlerV02.initState "https://s".toList)).seen.length = 4 ∧
    (2 : Nat) < 4 := by
  refine ⟨?_, ?_, ?_⟩
  · decide
  · decide
  · decide

/-- **C5** (corrected).  The cap is enforced only at loop entry: from any
state whose claimed count has reached `max_pages`, the crawl dispatches no
further batch — it is a no-op for every fuel — so crawling stops as soon as
the cap is observed; but the links claimed inside the final dispatched batch
are not capped, and the claimed count at termination may exceed `max_pages`
(see `c5_counterexample`). -/
theorem c5_cap_stops_dispatch (base : Str) (digest : Str → Str)
    (site : CrawlerV02.Site) (max_pages concurrent_requests fuel : Nat)
    (st : CrawlerV02.CrawlState) (h : max_pages ≤ st.seen.length) :
    CrawlerV02.crawl base digest site max_pages concurrent_requests fuel st = st := by
  cases fuel with
  | zero => rfl
  | succ f =>
    rw [CrawlerV02.crawl]
    rw [if_neg]
    intro hc
    omega

/-- Witness for `c5_cap_stops_dispatch`: a state with 2 claimed URLs and
`max_pages = 1` is final. -/
theorem c5_cap_stops_dispatch_witness :
    CrawlerV02.crawl "https://s".toList (fun s => s)
      ⟨fun _ => none, fun _ => []⟩ 1 5 10
      ⟨["https://s/q".toList], ["https://s".toList, "https://s/q".toList],
        [], [], []⟩ =
      ⟨["https://s/q".toList], ["https://s".toList, "https://s/q".toList],
        [], [], []⟩ := by
  exact c5_cap_stops_dispatch "https://s".toList (fun s => s)
    ⟨fun _ => none, fun _ => []⟩ 1 5 10
    ⟨["https://s/q".toList], ["https://s".toList, "https://s/q".toList],
      [], [], []⟩ (by decide)

theorem char_toNat_ofNat {n : Nat} (h : n.isValidChar) : (Char.ofNat n).toNat = n := by
  rw [Char.ofNat, dif_pos h]
  rfl

theorem char_isUpper_iff (c : Char) : c.isUpper = true ↔ (65 ≤ c.toNat ∧ c.toNat ≤ 90) := by
  rw [Char.isUpper, Bool.and_eq_true, decide_eq_true_eq, decide_eq_true_eq]
  exact Iff.rfl

theorem char_isLower_iff (c : Char) : c.isLower = true ↔ (97 ≤ c.toNat ∧ c.toNat ≤ 122) := by
  rw [Char.isLower, Bool.and_eq_true, decide_eq_true_eq, decide_eq_true_eq]
  exact Iff.rfl

theorem char_toLower_of_upper {c : Char} (h : 65 ≤ c.toNat ∧ c.toNat ≤ 90) :
    (Char.toLower c).toNat = c.toNat + 32 := by
  have hv : (c.toNat + 32).isValidChar := Or.inl (by omega)
  simp only [Char.toLower]
  rw [if_pos (by exact h), char_toNat_ofNat hv]

theorem char_toLower_of_not_upper {c : Char} (h : ¬ (65 ≤ c.toNat ∧ c.toNat ≤ 90)) :
    Char.toLower c = c := by
  simp only [Char.toLower]
  rw [if_neg (by exact h)]

theorem char_toLower_isAlpha {c : Char} (h : c.isAlpha = true) :
    (Char.toLower c).isAlpha = true := by
  rcases Bool.or_eq_true .. |>.mp (by rwa [Char.isAlpha] at h) with hu | hl
  · have hn := (char_isUpper_iff c).mp hu
    rw [Char.isAlpha, Bool.or_eq_true]
    right
    rw [char_isLower_iff, char_toLower_of_upper hn]
    omega
  · have hn := (char_isLower_iff c).mp hl
    rw [char_toLower_of_not_upper (by omega)]
    exact h

theorem char_toLower_isSchemeChar {c : Char} (h : isSchemeChar c = true) :
    isSchemeChar (Char.toLower c) = true := by
  by_cases hu : 65 ≤ c.toNat ∧ c.toNat ≤ 90
  · rw [isSchemeChar] at h ⊢
    have halpha : (Char.toLower c).isAlpha = true := by
      apply char_toLower_isAlpha
      rw [Char.isAlpha, Bool.or_eq_true]
      left
      exact (char_isUpper_iff c).mpr hu
    simp [halpha]
  · rw [char_toLower_of_not_upper hu]
    exact h

theorem char_toLower_toLower (c : Char) :
    Char.toLower (Char.toLower c) = Char.toLower c := by
  by_cases hu : 65 ≤ c.toNat ∧ c.toNat ≤ 90
  · have hn := char_toLower_of_upper hu
    apply char_toLower_of_not_upper
    omega
  · rw [char_toLower_of_not_upper hu, char_toLower_of_not_upper hu]

theorem isSchemeChar_ne_special {c : Char} (h : isSchemeChar c = true) :
    c ≠ ':' ∧ c ≠ '/' ∧ c ≠ '?' ∧ c ≠ '#' ∧ c ≠ ';' := by
  refine ⟨?_, ?_, ?_, ?_, ?_⟩ <;> intro he <;> subst he <;> exact absurd h (by decide)

theorem strLower_strLower (s : Str) : strLower (strLower s) = strLower s := by
  rw [strLower, strLower, List.map_map]
  apply List.map_congr_left
  intro c _
  exact char_toLower_toLower c

theorem strLower_eq_nil {s : Str} : strLower s = [] ↔ s = [] := by
  rw [strLower, List.map_eq_nil_iff]

theorem validScheme_chars {s : Str} (h : validScheme s = true) :
    ∀ c ∈ s, isSchemeChar c = true := by
  cases s with
  | nil => intro c hc; simp at hc
  | cons c cs =>
    rw [validScheme, Bool.and_eq_true] at h
    exact fun d hd => List.all_eq_true.mp h.2 d hd

theorem validScheme_strLower {s : Str} (h : validScheme s = true) :
    validScheme (strLower s) = true := by
  cases s with
  | nil => exact absurd h (by decide)
  | cons c cs =>
    rw [validScheme, Bool.and_eq_true] at h
    show validScheme (Char.toLower c :: strLower cs) = true
    rw [validScheme, Bool.and_eq_true]
    constructor
    · exact char_toLower_isAlpha h.1
    · rw [List.all_eq_true]
      intro d hd
      rcases List.mem_cons.mp hd with rfl | hd2
      · exact char_toLower_isSchemeChar (List.all_eq_true.mp h.2 c (List.mem_cons_self c cs))
      · rw [strLower] at hd2
        obtain ⟨e, he, rfl⟩ := List.mem_map.mp hd2
        exact char_toLower_isSchemeChar
          (List.all_eq_true.mp h.2 e (List.mem_cons_of_mem c he))

theorem validScheme_ne_nil {s : Str} (h : validScheme s = true) : s ≠ [] := by
  intro he
  subst he
  exact absurd h (by decide)

theorem validScheme_not_mem {s : Str} (h : validScheme s = true) :
    ':' ∉ s ∧ '/' ∉ s ∧ '?' ∉ s ∧ '#' ∉ s ∧ ';' ∉ s := by
  refine ⟨fun hm => ?_, fun hm => ?_, fun hm => ?_, fun hm => ?_, fun hm => ?_⟩ <;>
    exact absurd (validScheme_chars h _ hm) (by decide)

theorem dropWhile_append_eq {α : Type} [DecidableEq α] (g : α → Bool) (x y : List α) :
    (x ++ y).dropWhile g =
      if x.dropWhile g = [] then y.dropWhile g else x.dropWhile g ++ y := by
  induction x with
  | nil => simp
  | cons a as ih =>
    by_cases ha : g a
    · rw [List.cons_append, List.dropWhile_cons_of_pos ha,
        List.dropWhile_cons_of_pos ha, ih]
    · rw [List.cons_append, List.dropWhile_cons_of_neg ha,
        List.dropWhile_cons_of_neg ha, if_neg (by simp)]
      rfl

theorem dropWhile_all_neg {α : Type} (g : α → Bool) (l : List α)
    (h : ∀ a ∈ l, ¬ g a) : l.dropWhile g = l := by
  cases l with
  | nil => rfl
  | cons a as => exact List.dropWhile_cons_of_neg (h a (List.mem_cons_self a as))

theorem dropWhile_dropWhile {α : Type} (g : α → Bool) (l : List α) :
    (l.dropWhile g).dropWhile g = l.dropWhile g := by
  induction l with
  | nil => rfl
  | cons a as ih =>
    by_cases ha : g a
    · rw [List.dropWhile_cons_of_pos ha, ih]
    · rw [List.dropWhile_cons_of_neg ha, List.dropWhile_cons_of_neg ha]

theorem rstripSlash_append (a b : Str) :
    rstripSlash (a ++ b) =
      if rstripSlash b = [] then rstripSlash a else a ++ rstripSlash b := by
  unfold rstripSlash
  rw [List.reverse_append, dropWhile_append_eq]
  by_cases hb : b.reverse.dropWhile (· == '/') = []
  · rw [if_pos hb, if_pos (by rw [hb]; rfl)]
  · rw [if_neg hb, if_neg (by simp [hb])]
    simp

theorem rstripSlash_idem (s : Str) :
    rstripSlash (rstripSlash s) = rstripSlash s := by
  unfold rstripSlash
  rw [List.reverse_reverse, dropWhile_dropWhile]

theorem rstripSlash_no_slash {s : Str} (h : '/' ∉ s) : rstripSlash s = s := by
  unfold rstripSlash
  rw [dropWhile_all_neg]
  · simp
  · intro a ha
    simp only [beq_iff_eq]
    intro he
    subst he
    exact h (List.mem_reverse.mp ha)

theorem rstripSlash_pref (s : Str) : rstripSlash s <+: s := by
  unfold rstripSlash
  have hsfx : s.reverse.dropWhile (· == '/') <:+ s.reverse := List.dropWhile_suffix _
  obtain ⟨t, ht⟩ := hsfx
  refine ⟨t.reverse, ?_⟩
  rw [← List.reverse_append, ht, List.reverse_reverse]

theorem prefix_take_one {p q : List Char} (h : p <+: q) (hne : p ≠ []) :
    p.take 1 = q.take 1 := by
  obtain ⟨t, rfl⟩ := h
  cases p with
  | nil => exact absurd rfl hne
  | cons c cs => rfl

theorem rstripSlash_eq_nil_iff {s : Str} :
    rstripSlash s = [] ↔ ∀ c ∈ s, c = '/' := by
  unfold rstripSlash
  rw [List.reverse_eq_nil_iff, List.dropWhile_eq_nil_iff]
  constructor
  · intro h c hc
    have := h c (List.mem_reverse.mpr hc)
    simpa using this
  · intro h c hc
    simp [h c (List.mem_reverse.mp hc)]

theorem mem_rstripSlash {s : Str} {c : Char} (h : c ∈ rstripSlash s) : c ∈ s :=
  (rstripSlash_pref s).subset h
theorem span_append_all {f : Char → Bool} {h : Str} (t : Str)
    (hall : ∀ c ∈ h, f c = true)
    (ht : t = [] ∨ ∃ c t2, t = c :: t2 ∧ f c = false) :
    (h ++ t).takeWhile f = h ∧ (h ++ t).dropWhile f = t := by
  induction h with
  | nil =>
    simp only [List.nil_append]
    rcases ht with rfl | ⟨c, t2, rfl, hc⟩
    · exact ⟨rfl, rfl⟩
    · rw [List.takeWhile_cons_of_neg (by simp [hc]),
        List.dropWhile_cons_of_neg (by simp [hc])]
      exact ⟨rfl, rfl⟩
  | cons x xs ih =>
    have hx : f x = true := hall x (List.mem_cons_self x xs)
    obtain ⟨ih1, ih2⟩ := ih (fun c hc => hall c (List.mem_cons_of_mem x hc))
    constructor
    · rw [List.cons_append, List.takeWhile_cons_of_pos hx, ih1]
    · rw [List.cons_append, List.dropWhile_cons_of_pos hx]
      exact ih2

theorem dropWhile_head_neg (f : Char → Bool) (l : Str) :
    l.dropWhile f = [] ∨
      ∃ c rest, l.dropWhile f = c :: rest ∧ f c = false := by
  induction l with
  | nil => exact Or.inl rfl
  | cons a as ih =>
    by_cases ha : f a
    · rw [List.dropWhile_cons_of_pos ha]
      exact ih
    · rw [List.dropWhile_cons_of_neg ha]
      exact Or.inr ⟨a, as, rfl, by simpa using ha⟩

theorem splitScheme_of_scheme {g : Str} (rest d : Str)
    (hg : validScheme g = true) :
    splitScheme (g ++ ':' :: rest) d = (strLower g, rest) := by
  rw [splitScheme, splitFirst_append rest (validScheme_not_mem hg).1]
  exact if_pos hg

theorem splitScheme_cases (url0 d : Str) :
    splitScheme url0 d = (d, url0) ∨
    ∃ pre post, url0 = pre ++ ':' :: post ∧ validScheme pre = true ∧
      splitScheme url0 d = (strLower pre, post) := by
  rw [splitScheme]
  cases hsp : splitFirst ':' url0 with
  | none => exact Or.inl rfl
  | some p =>
    obtain ⟨pre, post⟩ := p
    by_cases hv : validScheme pre = true
    · right
      exact ⟨pre, post, (splitFirst_eq_some hsp).1, hv, if_pos hv⟩
    · exact Or.inl (if_neg hv)

theorem splitNetloc_slashes (n t : Str)
    (hall : ∀ c ∈ n, notNetlocDelim c = true)
    (ht : t = [] ∨ ∃ c t2, t = c :: t2 ∧ notNetlocDelim c = false) :
    splitNetloc ('/' :: '/' :: (n ++ t)) = (n, t) := by
  obtain ⟨h1, h2⟩ := span_append_all t hall ht
  rw [splitNetloc, h1, h2]

theorem splitNetloc_props (u : Str) :
    (∀ c ∈ (splitNetloc u).1, notNetlocDelim c = true) ∧
    ((splitNetloc u).1 ≠ [] →
      ((splitNetloc u).2 = [] ∨
        ∃ c p2, (splitNetloc u).2 = c :: p2 ∧ notNetlocDelim c = false)) := by
  rw [splitNetloc.eq_def]
  split
  · next r =>
    constructor
    · intro c hc
      exact List.mem_takeWhile_imp hc
    · intro _
      exact dropWhile_head_neg notNetlocDelim r
  · next _ =>
    constructor
    · intro c hc
      simp at hc
    · intro hne
      exact absurd rfl hne

theorem splitFragmentFn_not_mem {s : Str} (h : '#' ∉ s) :
    splitFragmentFn s = (s, []) := by
  rw [splitFragmentFn, splitFirst_not_mem h]

theorem splitFragmentFn_append {a : Str} (b : Str) (ha : '#' ∉ a) :
    splitFragmentFn (a ++ '#' :: b) = (a, b) := by
  rw [splitFragmentFn, splitFirst_append b ha]

theorem splitFragmentFn_props (s : Str) :
    (splitFragmentFn s).1 <+: s ∧ '#' ∉ (splitFragmentFn s).1 := by
  rw [splitFragmentFn]
  cases hsp : splitFirst '#' s with
  | none => exact ⟨List.prefix_rfl, splitFirst_eq_none.mp hsp⟩
  | some p =>
    obtain ⟨a, b⟩ := p
    obtain ⟨hs, hna⟩ := splitFirst_eq_some hsp
    exact ⟨⟨'#' :: b, hs.symm⟩, hna⟩

theorem splitQueryFn_not_mem {s : Str} (h : '?' ∉ s) :
    splitQueryFn s = (s, []) := by
  rw [splitQueryFn, splitFirst_not_mem h]

theorem splitQueryFn_append {a : Str} (b : Str) (ha : '?' ∉ a) :
    splitQueryFn (a ++ '?' :: b) = (a, b) := by
  rw [splitQueryFn, splitFirst_append b ha]

theorem splitQueryFn_props (s : Str) :
    (splitQueryFn s).1 <+: s ∧ '?' ∉ (splitQueryFn s).1 ∧
      (splitQueryFn s).2 <:+ s := by
  rw [splitQueryFn]
  cases hsp : splitFirst '?' s with
  | none => exact ⟨List.prefix_rfl, splitFirst_eq_none.mp hsp, s, by simp⟩
  | some p =>
    obtain ⟨a, b⟩ := p
    obtain ⟨hs, hna⟩ := splitFirst_eq_some hsp
    exact ⟨⟨'?' :: b, hs.symm⟩, hna, a ++ ['?'], by rw [hs]; simp⟩
theorem notNetlocDelim_false {c : Char} (h : notNetlocDelim c = false) :
    c = '/' ∨ c = '?' ∨ c = '#' := by
  by_contra hn
  push_neg at hn
  rw [notNetlocDelim] at h
  simp [hn.1, hn.2.1, hn.2.2] at h

theorem splitparams_props (u : Str) :
    (splitparams u).1 <+: u ∧ (∀ c ∈ (splitparams u).2, c ∈ u) := by
  cases hr : rsplitLast '/' u with
  | none =>
    cases hsp : splitFirst ';' u with
    | none =>
      simp only [splitparams, hr, hsp]
      exact ⟨List.prefix_rfl, fun c hc => by simp at hc⟩
    | some p =>
      obtain ⟨a, b⟩ := p
      simp only [splitparams, hr, hsp]
      obtain ⟨hs, _⟩ := splitFirst_eq_some hsp
      refine ⟨⟨';' :: b, hs.symm⟩, fun c hc => ?_⟩
      rw [hs]
      simp [hc]
  | some p =>
    obtain ⟨before, after⟩ := p
    obtain ⟨hu, _⟩ := rsplitLast_eq_some hr
    cases hsp : splitFirst ';' after with
    | none =>
      simp only [splitparams, hr, hsp]
      exact ⟨List.prefix_rfl, fun c hc => by simp at hc⟩
    | some q =>
      obtain ⟨a, b⟩ := q
      simp only [splitparams, hr, hsp]
      obtain ⟨ha, _⟩ := splitFirst_eq_some hsp
      constructor
      · rw [hu, ha]
        exact ⟨';' :: b, by simp⟩
      · intro c hc
        rw [hu, ha]
        simp [hc]

theorem urlsplit_scheme (url0 d : Str) :
    (urlsplit url0 d).scheme = (splitScheme url0 d).1 := rfl

theorem urlsplit_netloc (url0 d : Str) :
    (urlsplit url0 d).netloc = (splitNetloc (splitScheme url0 d).2).1 := rfl

theorem urlsplit_path (url0 d : Str) :
    (urlsplit url0 d).path =
      (splitQueryFn (splitFragmentFn (splitNetloc (splitScheme url0 d).2).2).1).1 := rfl

theorem urlsplit_query (url0 d : Str) :
    (urlsplit url0 d).query =
      (splitQueryFn (splitFragmentFn (splitNetloc (splitScheme url0 d).2).2).1).2 := rfl

theorem urlsplit_fragment (url0 d : Str) :
    (urlsplit url0 d).fragment =
      (splitFragmentFn (splitNetloc (splitScheme url0 d).2).2).2 := rfl

theorem prefix_nil_of_eq_nil {a x : Str} (h : a <+: x) (hx : x = []) : a = [] := by
  obtain ⟨t, ht⟩ := h
  rw [hx] at ht
  exact (List.append_eq_nil.mp ht).1

theorem urlsplit_props (url0 d : Str) :
    (∀ c ∈ (urlsplit url0 d).netloc, notNetlocDelim c = true) ∧
    '#' ∉ (urlsplit url0 d).path ∧ '?' ∉ (urlsplit url0 d).path ∧
    '#' ∉ (urlsplit url0 d).query ∧
    ((urlsplit url0 d).netloc ≠ [] →
      ((urlsplit url0 d).path = [] ∨ (urlsplit url0 d).path.take 1 = ['/'])) ∧
    ((urlsplit url0 d).scheme = d ∨
      (validScheme (urlsplit url0 d).scheme = true ∧
        strLower (urlsplit url0 d).scheme = (urlsplit url0 d).scheme)) := by
  simp only [urlsplit_scheme, urlsplit_netloc, urlsplit_path, urlsplit_query]
  obtain ⟨hfp, hfm⟩ := splitFragmentFn_props (splitNetloc (splitScheme url0 d).2).2
  obtain ⟨hqp, hqm, hqs⟩ :=
    splitQueryFn_props (splitFragmentFn (splitNetloc (splitScheme url0 d).2).2).1
  obtain ⟨hnall, hnhead⟩ := splitNetloc_props (splitScheme url0 d).2
  have hpref : (splitQueryFn (splitFragmentFn
      (splitNetloc (splitScheme url0 d).2).2).1).1 <+:
      (splitNetloc (splitScheme url0 d).2).2 := hqp.trans hfp
  refine ⟨hnall, ?_, hqm, ?_, ?_, ?_⟩
  · intro hc
    exact hfm (hqp.subset hc)
  · intro hc
    exact hfm (hqs.subset hc)
  · intro hne
    rcases hnhead hne with hnil | ⟨c, p2, heq, hcf⟩
    · exact Or.inl (prefix_nil_of_eq_nil hqp (prefix_nil_of_eq_nil hfp hnil))
    · rcases notNetlocDelim_false hcf with rfl | rfl | rfl
      · by_cases hpe : (splitQueryFn (splitFragmentFn
            (splitNetloc (splitScheme url0 d).2).2).1).1 = []
        · exact Or.inl hpe
        · exact Or.inr ((prefix_take_one hpref hpe).trans (by rw [heq]; simp :
            (splitNetloc (splitScheme url0 d).2).2.take 1 = ['/']))
      · left
        by_contra hpe
        have hto := (prefix_take_one hpref hpe).trans (by rw [heq]; simp :
          (splitNetloc (splitScheme url0 d).2).2.take 1 = ['?'])
        apply hqm
        exact List.mem_of_mem_take (by rw [hto]; simp)
      · left
        by_contra hpe
        have hto := (prefix_take_one hpref hpe).trans (by rw [heq]; simp :
          (splitNetloc (splitScheme url0 d).2).2.take 1 = ['#'])
        apply hfm
        apply hqp.subset
        exact List.mem_of_mem_take (by rw [hto]; simp)
  · rcases splitScheme_cases url0 d with hcase | ⟨pre, post, _, hv, hcase⟩
    · exact Or.inl (by rw [hcase])
    · right
      rw [hcase]
      exact ⟨validScheme_strLower hv, strLower_strLower pre⟩
theorem urlparse_components (url0 d : Str) :
    (urlparse url0 d).scheme = (urlsplit url0 d).scheme ∧
    (urlparse url0 d).netloc = (urlsplit url0 d).netloc ∧
    (urlparse url0 d).query = (urlsplit url0 d).query ∧
    (urlparse url0 d).fragment = (urlsplit url0 d).fragment := by
  simp only [urlparse]
  split
  · exact ⟨rfl, rfl, rfl, rfl⟩
  · exact ⟨rfl, rfl, rfl, rfl⟩

theorem urlparse_path_cases (url0 d : Str) :
    ((urlparse url0 d).path = (urlsplit url0 d).path ∧
      (urlparse url0 d).params = []) ∨
    ((urlparse url0 d).path = (splitparams (urlsplit url0 d).path).1 ∧
      (urlparse url0 d).params = (splitparams (urlsplit url0 d).path).2) := by
  simp only [urlparse]
  split
  · exact Or.inr ⟨rfl, rfl⟩
  · exact Or.inl ⟨rfl, rfl⟩

theorem urlparse_props (url0 d : Str) :
    (∀ c ∈ (urlparse url0 d).netloc, notNetlocDelim c = true) ∧
    '#' ∉ (urlparse url0 d).path ∧ '?' ∉ (urlparse url0 d).path ∧
    '#' ∉ (urlparse url0 d).query ∧
    ((urlparse url0 d).netloc ≠ [] →
      ((urlparse url0 d).path = [] ∨ (urlparse url0 d).path.take 1 = ['/'])) ∧
    ((urlparse url0 d).scheme = d ∨
      (validScheme (urlparse url0 d).scheme = true ∧
        strLower (urlparse url0 d).scheme = (urlparse url0 d).scheme)) ∧
    '#' ∉ (urlparse url0 d).params ∧ '?' ∉ (urlparse url0 d).params := by
  obtain ⟨hs, hn, hq, hf⟩ := urlparse_components url0 d
  obtain ⟨pn, pf, pq, pqq, pshape, pscheme⟩ := urlsplit_props url0 d
  rcases urlparse_path_cases url0 d with ⟨hpath, hparams⟩ | ⟨hpath, hparams⟩
  · rw [hs, hn, hq, hpath, hparams]
    exact ⟨pn, pf, pq, pqq, pshape, pscheme, by simp, by simp⟩
  · obtain ⟨hpp, hpm⟩ := splitparams_props (urlsplit url0 d).path
    rw [hs, hn, hq, hpath, hparams]
    refine ⟨pn, fun hc => pf (hpp.subset hc), fun hc => pq (hpp.subset hc), pqq,
      ?_, pscheme, fun hc => pf (hpm _ hc), fun hc => pq (hpm _ hc)⟩
    intro hne
    rcases pshape hne with hnil | htake
    · left
      exact prefix_nil_of_eq_nil hpp hnil
    · by_cases hpe : (splitparams (urlsplit url0 d).path).1 = []
      · exact Or.inl hpe
      · right
        rw [prefix_take_one hpp hpe]
        exact htake

theorem urlsplit_compute {g : Str} (n tail d : Str)
    (hg : validScheme g = true) (hgl : strLower g = g)
    (hn : ∀ c ∈ n, notNetlocDelim c = true)
    (htail : tail = [] ∨ ∃ c t2, tail = c :: t2 ∧ notNetlocDelim c = false) :
    urlsplit (g ++ ':' :: '/' :: '/' :: (n ++ tail)) d =
      ⟨g, n, (splitQueryFn (splitFragmentFn tail).1).1,
        (splitQueryFn (splitFragmentFn tail).1).2, (splitFragmentFn tail).2⟩ := by
  have h1 : splitScheme (g ++ ':' :: ('/' :: '/' :: (n ++ tail))) d =
      (g, '/' :: '/' :: (n ++ tail)) := by
    rw [splitScheme_of_scheme _ _ hg, hgl]
  have h2 : splitNetloc ('/' :: '/' :: (n ++ tail)) = (n, tail) :=
    splitNetloc_slashes n tail hn htail
  simp only [urlsplit, h1, h2]

theorem urlparse_of_urlsplit {url0 d : Str} {g n p q f : Str}
    (h : urlsplit url0 d = ⟨g, n, p, q, f⟩) (hps : ';' ∉ p) :
    urlparse url0 d = ⟨g, n, p, [], q, f⟩ := by
  simp only [urlparse, h]
  rw [if_neg]
  intro hc
  exact hps hc.2

theorem urlparse_compute {g : Str} (n p q f d : Str)
    (hg : validScheme g = true) (hgl : strLower g = g)
    (hn : ∀ c ∈ n, notNetlocDelim c = true)
    (hp : p = [] ∨ p.take 1 = ['/'])
    (hpq : '?' ∉ p) (hpf : '#' ∉ p) (hps : ';' ∉ p)
    (hq : '#' ∉ q) :
    urlparse (g ++ ':' :: '/' :: '/' :: (n ++ (p ++ '?' :: (q ++ '#' :: f)))) d =
      ⟨g, n, p, [], q, f⟩ := by
  have hfr : splitFragmentFn (p ++ '?' :: (q ++ '#' :: f)) = (p ++ '?' :: q, f) := by
    have he : p ++ '?' :: (q ++ '#' :: f) = (p ++ '?' :: q) ++ '#' :: f := by simp
    rw [he, splitFragmentFn_append f]
    intro hc
    rcases List.mem_append.mp hc with hc | hc
    · exact hpf hc
    · rcases List.mem_cons.mp hc with hc | hc
      · exact absurd hc (by decide)
      · exact hq hc
  have hqr : splitQueryFn (p ++ '?' :: q) = (p, q) := splitQueryFn_append q hpq
  have htail : p ++ '?' :: (q ++ '#' :: f) = [] ∨
      ∃ c t2, p ++ '?' :: (q ++ '#' :: f) = c :: t2 ∧ notNetlocDelim c = false := by
    rcases hp with rfl | htake
    · exact Or.inr ⟨'?', q ++ '#' :: f, rfl, by decide⟩
    · cases p with
      | nil => exact Or.inr ⟨'?', q ++ '#' :: f, rfl, by decide⟩
      | cons c p2 =>
        have : c = '/' := by
          have := htake
          simp at this
          exact this
        subst this
        exact Or.inr ⟨'/', p2 ++ '?' :: (q ++ '#' :: f), rfl, by decide⟩
  have := urlsplit_compute (g := g) n (p ++ '?' :: (q ++ '#' :: f)) d hg hgl hn htail
  rw [hfr, hqr] at this
  exact urlparse_of_urlsplit this hps

theorem urlparse_compute_nopq {g : Str} (n p d : Str)
    (hg : validScheme g = true) (hgl : strLower g = g)
    (hn : ∀ c ∈ n, notNetlocDelim c = true)
    (hp : p = [] ∨ p.take 1 = ['/'])
    (hpq : '?' ∉ p) (hpf : '#' ∉ p) (hps : ';' ∉ p) :
    urlparse (g ++ ':' :: '/' :: '/' :: (n ++ p)) d = ⟨g, n, p, [], [], []⟩ := by
  have htail : p = [] ∨ ∃ c t2, p = c :: t2 ∧ notNetlocDelim c = false := by
    rcases hp with rfl | htake
    · exact Or.inl rfl
    · cases p with
      | nil => exact Or.inl rfl
      | cons c p2 =>
        have : c = '/' := by
          have := htake
          simp at this
          exact this
        subst this
        exact Or.inr ⟨'/', p2, rfl, by decide⟩
  have := urlsplit_compute (g := g) n p d hg hgl hn htail
  rw [splitFragmentFn_not_mem hpf, splitQueryFn_not_mem hpq] at this
  exact urlparse_of_urlsplit this hps

theorem urlparse_generic_noqf {g : Str} (t d : Str)
    (hg : validScheme g = true) (hgl : strLower g = g)
    (hq : '?' ∉ t) (hf : '#' ∉ t) (hsemi : ';' ∉ t) :
    ∃ nl pp, urlparse (g ++ ':' :: '/' :: '/' :: t) d = ⟨g, nl, pp, [], [], []⟩ ∧
      nl ++ pp = t ∧ (∀ c ∈ nl, notNetlocDelim c = true) ∧
      (pp = [] ∨ ∃ c t2, pp = c :: t2 ∧ notNetlocDelim c = false) := by
  refine ⟨t.takeWhile notNetlocDelim, t.dropWhile notNetlocDelim, ?_, ?_, ?_, ?_⟩
  · have h1 : splitScheme (g ++ ':' :: ('/' :: '/' :: t)) d =
        (g, '/' :: '/' :: t) := by
      rw [splitScheme_of_scheme _ _ hg, hgl]
    have hppq : '?' ∉ t.dropWhile notNetlocDelim :=
      fun hc => hq ((List.dropWhile_suffix _).subset hc)
    have hppf : '#' ∉ t.dropWhile notNetlocDelim :=
      fun hc => hf ((List.dropWhile_suffix _).subset hc)
    have hpps : ';' ∉ t.dropWhile notNetlocDelim :=
      fun hc => hsemi ((List.dropWhile_suffix _).subset hc)
    have h3 : urlsplit (g ++ ':' :: '/' :: '/' :: t) d =
        ⟨g, t.takeWhile notNetlocDelim, t.dropWhile notNetlocDelim, [], []⟩ := by
      simp only [urlsplit, h1, splitNetloc,
        splitFragmentFn_not_mem hppf, splitQueryFn_not_mem hppq]
    exact urlparse_of_urlsplit h3 hpps
  · exact List.takeWhile_append_dropWhile notNetlocDelim t
  · intro c hc
    exact List.mem_takeWhile_imp hc
  · exact dropWhile_head_neg notNetlocDelim t

theorem urlunsplit_nopq (g n p : Str) (hg : g ≠ []) (hn : n ≠ [])
    (hp : p = [] ∨ p.take 1 = ['/']) :
    urlunsplit ⟨g, n, p, [], []⟩ = g ++ ':' :: '/' :: '/' :: (n ++ p) := by
  have h1 : (if p ≠ [] ∧ p.take 1 ≠ ['/'] then '/' :: p else p) = p := by
    rcases hp with rfl | h
    · simp
    · rw [if_neg]
      intro hc
      exact hc.2 h
  have hne : ¬ (([] : Str) ≠ []) := fun hc => hc rfl
  simp only [urlunsplit]
  rw [h1, if_pos (Or.inl hn : n ≠ [] ∨ (g ≠ [] ∧ g ∈ uses_netloc ∧ p.take 2 ≠ ['/', '/'])),
    if_pos hg, if_neg hne, if_neg hne]

theorem urlunsplit_full (g n p q f : Str) (hg : g ≠ []) (hn : n ≠ [])
    (hp : p = [] ∨ p.take 1 = ['/']) (hq : q ≠ []) (hf : f ≠ []) :
    urlunsplit ⟨g, n, p, q, f⟩ =
      g ++ ':' :: '/' :: '/' :: (n ++ (p ++ '?' :: (q ++ '#' :: f))) := by
  have h1 : (if p ≠ [] ∧ p.take 1 ≠ ['/'] then '/' :: p else p) = p := by
    rcases hp with rfl | h
    · simp
    · rw [if_neg]
      intro hc
      exact hc.2 h
  simp only [urlunsplit]
  rw [h1, if_pos (Or.inl hn : n ≠ [] ∨ (g ≠ [] ∧ g ∈ uses_netloc ∧ p.take 2 ≠ ['/', '/'])),
    if_pos hg, if_pos hq, if_pos hf]
  simp

theorem urlunparse_nopq (g n p : Str) (hg : g ≠ []) (hn : n ≠ [])
    (hp : p = [] ∨ p.take 1 = ['/']) :
    urlunparse ⟨g, n, p, [], [], []⟩ = g ++ ':' :: '/' :: '/' :: (n ++ p) := by
  have hne : ¬ (([] : Str) ≠ []) := fun hc => hc rfl
  simp only [urlunparse]
  rw [if_neg hne]
  exact urlunsplit_nopq g n p hg hn hp

theorem urlunparse_full (g n p q f : Str) (hg : g ≠ []) (hn : n ≠ [])
    (hp : p = [] ∨ p.take 1 = ['/']) (hq : q ≠ []) (hf : f ≠ []) :
    urlunparse ⟨g, n, p, [], q, f⟩ =
      g ++ ':' :: '/' :: '/' :: (n ++ (p ++ '?' :: (q ++ '#' :: f))) := by
  have hne : ¬ (([] : Str) ≠ []) := fun hc => hc rfl
  simp only [urlunparse]
  rw [if_neg hne]
  exact urlunsplit_full g n p q f hg hn hp hq hf
theorem urljoin_of_other (base url : Str) (hb : base ≠ []) (hu : url ≠ [])
    (hcond : (urlparse url (urlparse base []).scheme).scheme ≠ (urlparse base []).scheme ∨
      (urlparse url (urlparse base []).scheme).scheme ∉ uses_relative) :
    urljoin base url = url := by
  simp only [urljoin]
  rw [if_neg hb, if_neg hu, if_pos hcond]

theorem urljoin_of_netloc (base url : Str) (hb : base ≠ []) (hu : url ≠ [])
    (hcond : ¬ ((urlparse url (urlparse base []).scheme).scheme ≠ (urlparse base []).scheme ∨
      (urlparse url (urlparse base []).scheme).scheme ∉ uses_relative))
    (hnet : (urlparse url (urlparse base []).scheme).scheme ∈ uses_netloc ∧
      (urlparse url (urlparse base []).scheme).netloc ≠ []) :
    urljoin base url = urlunparse
      ⟨(urlparse url (urlparse base []).scheme).scheme,
       (urlparse url (urlparse base []).scheme).netloc,
       (urlparse url (urlparse base []).scheme).path,
       (urlparse url (urlparse base []).scheme).params,
       (urlparse url (urlparse base []).scheme).query,
       (urlparse url (urlparse base []).scheme).fragment⟩ := by
  simp only [urljoin]
  rw [if_neg hb, if_neg hu, if_neg hcond, if_pos hnet]

theorem urljoin_of_empty_path (base url : Str) (hb : base ≠ []) (hu : url ≠ [])
    (hcond : ¬ ((urlparse url (urlparse base []).scheme).scheme ≠ (urlparse base []).scheme ∨
      (urlparse url (urlparse base []).scheme).scheme ∉ uses_relative))
    (hnet : ¬ ((urlparse url (urlparse base []).scheme).scheme ∈ uses_netloc ∧
      (urlparse url (urlparse base []).scheme).netloc ≠ []))
    (hpe : (urlparse url (urlparse base []).scheme).path = [] ∧
      (urlparse url (urlparse base []).scheme).params = []) :
    urljoin base url = urlunparse
      ⟨(urlparse url (urlparse base []).scheme).scheme,
       (if (urlparse url (urlparse base []).scheme).scheme ∈ uses_netloc then
         (urlparse base []).netloc else (urlparse url (urlparse base []).scheme).netloc),
       (urlparse base []).path, (urlparse base []).params,
       (if (urlparse url (urlparse base []).scheme).query = [] then
         (urlparse base []).query else (urlparse url (urlparse base []).scheme).query),
       (urlparse url (urlparse base []).scheme).fragment⟩ := by
  simp only [urljoin]
  rw [if_neg hb, if_neg hu, if_neg hcond, if_neg hnet, if_pos hpe]

theorem urljoin_of_segments (base url : Str) (hb : base ≠ []) (hu : url ≠ [])
    (hcond : ¬ ((urlparse url (urlparse base []).scheme).scheme ≠ (urlparse base []).scheme ∨
      (urlparse url (urlparse base []).scheme).scheme ∉ uses_relative))
    (hnet : ¬ ((urlparse url (urlparse base []).scheme).scheme ∈ uses_netloc ∧
      (urlparse url (urlparse base []).scheme).netloc ≠ []))
    (hpe : ¬ ((urlparse url (urlparse base []).scheme).path = [] ∧
      (urlparse url (urlparse base []).scheme).params = [])) :
    urljoin base url = urlunparse
      ⟨(urlparse url (urlparse base []).scheme).scheme,
       (if (urlparse url (urlparse base []).scheme).scheme ∈ uses_netloc then
         (urlparse base []).netloc else (urlparse url (urlparse base []).scheme).netloc),
       joinPath (urlparse base []).path (urlparse url (urlparse base []).scheme).path,
       (urlparse url (urlparse base []).scheme).params,
       (urlparse url (urlparse base []).scheme).query,
       (urlparse url (urlparse base []).scheme).fragment⟩ := by
  simp only [urljoin, joinPath]
  rw [if_neg hb, if_neg hu, if_neg hcond, if_neg hnet, if_neg hpe]

theorem urlunsplit_shape (g nl p q f : Str) (hg : g ≠ []) (hnl : nl ≠ []) :
    ∃ tail, urlunsplit ⟨g, nl, p, q, f⟩ = g ++ ':' :: '/' :: '/' :: (nl ++ tail) ∧
      (tail = [] ∨ ∃ c t2, tail = c :: t2 ∧ notNetlocDelim c = false) := by
  have hu1 : (if p ≠ [] ∧ p.take 1 ≠ ['/'] then '/' :: p else p) = [] ∨
      (if p ≠ [] ∧ p.take 1 ≠ ['/'] then '/' :: p else p).take 1 = ['/'] := by
    split
    · right
      rfl
    · rename_i hc
      rcases Decidable.not_and_iff_or_not.mp hc with hc | hc
      · left
        exact Decidable.not_not.mp hc
      · right
        exact Decidable.not_not.mp hc
  set u1 := if p ≠ [] ∧ p.take 1 ≠ ['/'] then '/' :: p else p with hu1def
  have hhead : ∀ t : Str, (t = [] ∨ t.take 1 = ['?'] ∨ t.take 1 = ['#'] ∨ t.take 1 = ['/']) →
      t = [] ∨ ∃ c t2, t = c :: t2 ∧ notNetlocDelim c = false := by
    intro t ht
    cases t with
    | nil => exact Or.inl rfl
    | cons c t2 =>
      right
      refine ⟨c, t2, rfl, ?_⟩
      rcases ht with ht | ht | ht | ht
      · exact absurd ht (by simp)
      all_goals
        simp only [List.take, List.cons.injEq] at ht
        rw [ht.1]
        decide
  have hu1h : u1 = [] ∨ u1.take 1 = ['/'] := hu1
  by_cases hq : q ≠ [] <;> by_cases hf : f ≠ []
  · refine ⟨u1 ++ '?' :: (q ++ '#' :: f), ?_, ?_⟩
    · simp only [urlunsplit]
      rw [if_pos (Or.inl hnl : nl ≠ [] ∨ (g ≠ [] ∧ g ∈ uses_netloc ∧ p.take 2 ≠ ['/', '/'])),
        if_pos hg, if_pos hq, if_pos hf]
      simp
    · apply hhead
      rcases hu1h with h | h
      · rw [h]
        simp
      · right
        right
        right
        have hne : u1 ≠ [] := by
          intro hc
          rw [hc] at h
          exact absurd h (by decide)
        rw [← prefix_take_one (List.prefix_append u1 _) hne]
        exact h
  · rw [Decidable.not_not] at hf
    subst hf
    refine ⟨u1 ++ '?' :: q, ?_, ?_⟩
    · simp only [urlunsplit]
      rw [if_pos (Or.inl hnl : nl ≠ [] ∨ (g ≠ [] ∧ g ∈ uses_netloc ∧ p.take 2 ≠ ['/', '/'])),
        if_pos hg, if_pos hq, if_neg (fun hc : ([] : Str) ≠ [] => hc rfl)]
      simp
    · apply hhead
      rcases hu1h with h | h
      · rw [h]
        simp
      · right
        right
        right
        have hne : u1 ≠ [] := by
          intro hc
          rw [hc] at h
          exact absurd h (by decide)
        rw [← prefix_take_one (List.prefix_append u1 _) hne]
        exact h
  · rw [Decidable.not_not] at hq
    subst hq
    refine ⟨u1 ++ '#' :: f, ?_, ?_⟩
    · simp only [urlunsplit]
      rw [if_pos (Or.inl hnl : nl ≠ [] ∨ (g ≠ [] ∧ g ∈ uses_netloc ∧ p.take 2 ≠ ['/', '/'])),
        if_pos hg, if_neg (fun hc : ([] : Str) ≠ [] => hc rfl), if_pos hf]
      simp
    · apply hhead
      rcases hu1h with h | h
      · rw [h]
        simp
      · right
        right
        right
        have hne : u1 ≠ [] := by
          intro hc
          rw [hc] at h
          exact absurd h (by decide)
        rw [← prefix_take_one (List.prefix_append u1 _) hne]
        exact h
  · rw [Decidable.not_not] at hq hf
    subst hq
    subst hf
    refine ⟨u1, ?_, hhead u1 (by tauto)⟩
    simp only [urlunsplit]
    rw [if_pos (Or.inl hnl : nl ≠ [] ∨ (g ≠ [] ∧ g ∈ uses_netloc ∧ p.take 2 ≠ ['/', '/'])),
      if_pos hg, if_neg (fun hc : ([] : Str) ≠ [] => hc rfl),
      if_neg (fun hc : ([] : Str) ≠ [] => hc rfl)]

theorem urlparse_urlunparse (g nl pt pr q f d : Str)
    (hg : validScheme g = true) (hgl : strLower g = g)
    (hnl : nl ≠ []) (hnlc : ∀ c ∈ nl, notNetlocDelim c = true) :
    (urlparse (urlunparse ⟨g, nl, pt, pr, q, f⟩) d).scheme = g ∧
    (urlparse (urlunparse ⟨g, nl, pt, pr, q, f⟩) d).netloc = nl := by
  have hgne : g ≠ [] := validScheme_ne_nil hg
  obtain ⟨tail, htail, hhd⟩ :=
    urlunsplit_shape g nl (if pr ≠ [] then pt ++ ';' :: pr else pt) q f hgne hnl
  have hun : urlunparse ⟨g, nl, pt, pr, q, f⟩ =
      g ++ ':' :: '/' :: '/' :: (nl ++ tail) := by
    simp only [urlunparse]
    exact htail
  have hsplit := urlsplit_compute (g := g) nl tail d hg hgl hnlc hhd
  obtain ⟨hs, hn, _, _⟩ := urlparse_components (urlunparse ⟨g, nl, pt, pr, q, f⟩) d
  rw [hun]
  rw [hun, hsplit] at hs hn
  exact ⟨hs, hn⟩
/-- C6 counterexample: `_normalize_url` of Crawler-v02 does not produce the
spec's canonical form. For base `https://example.com` and URL
`https://EXAMPLE.com/a/?x=1#f` the result is `https://EXAMPLE.com/a`: the
query string `x=1` is dropped, and the host keeps its upper case; the
spec-mandated canonical output `https://example.com/a?x=1` is not produced. -/
theorem c6_counterexample :
    CrawlerV02.normalize_url "https://example.com".toList
        "https://EXAMPLE.com/a/?x=1#f".toList = "https://EXAMPLE.com/a".toList ∧
    CrawlerV02.normalize_url "https://example.com".toList
        "https://EXAMPLE.com/a/?x=1#f".toList ≠ "https://example.com/a?x=1".toList := by
  constructor
  · decide
  · decide

/-- C6 (amended): for every absolute input URL
`g://h p ? q # f` whose scheme is well-formed and in `uses_netloc` and whose
host is non-empty, `_normalize_url` returns `g://h p` with trailing slashes
stripped: the fragment and trailing `'/'` are removed as claimed, but the
query string is removed as well (not preserved) and the host's letter case
is preserved (not lowercased). -/
theorem c6_normalize_canonical (base g h p q f : Str)
    (hbase : base ≠ [])
    (hg : validScheme g = true) (hgl : strLower g = g)
    (hgn : g ∈ uses_netloc)
    (hh : h ≠ []) (hhc : ∀ c ∈ h, notNetlocDelim c = true)
    (hp : p = [] ∨ p.take 1 = ['/'])
    (hpq : '?' ∉ p) (hpf : '#' ∉ p) (hps : ';' ∉ p)
    (hqf : '#' ∉ q) (hqne : q ≠ []) (hfne : f ≠ []) :
    CrawlerV02.normalize_url base
        (g ++ ':' :: '/' :: '/' :: (h ++ (p ++ '?' :: (q ++ '#' :: f)))) =
      rstripSlash (g ++ ':' :: '/' :: '/' :: (h ++ p)) := by
  have hu : ∀ d, urlparse (g ++ ':' :: '/' :: '/' :: (h ++ (p ++ '?' :: (q ++ '#' :: f)))) d
      = ⟨g, h, p, [], q, f⟩ :=
    fun d => urlparse_compute h p q f d hg hgl hhc hp hpq hpf hps hqf
  have hune : g ++ ':' :: '/' :: '/' :: (h ++ (p ++ '?' :: (q ++ '#' :: f))) ≠ [] := by
    cases g <;> simp
  have hj : urljoin base (g ++ ':' :: '/' :: '/' :: (h ++ (p ++ '?' :: (q ++ '#' :: f))))
      = g ++ ':' :: '/' :: '/' :: (h ++ (p ++ '?' :: (q ++ '#' :: f))) := by
    by_cases hc : (urlparse (g ++ ':' :: '/' :: '/' :: (h ++ (p ++ '?' :: (q ++ '#' :: f))))
          (urlparse base []).scheme).scheme ≠ (urlparse base []).scheme ∨
        (urlparse (g ++ ':' :: '/' :: '/' :: (h ++ (p ++ '?' :: (q ++ '#' :: f))))
          (urlparse base []).scheme).scheme ∉ uses_relative
    · exact urljoin_of_other base _ hbase hune hc
    · rw [urljoin_of_netloc base _ hbase hune hc (by rw [hu]; exact ⟨hgn, hh⟩), hu]
      exact urlunparse_full g h p q f (validScheme_ne_nil hg) hh hp hqne hfne
  simp only [CrawlerV02.normalize_url]
  rw [hj, hu]

/-- Witness for `c6_normalize_canonical` at concrete inputs. -/
theorem c6_normalize_canonical_witness :
    CrawlerV02.normalize_url "http://x".toList
        ("https".toList ++ ':' :: '/' :: '/' ::
          ("Host.COM".toList ++ ("/a/".toList ++ '?' :: ("x=1".toList ++ '#' :: "frag".toList)))) =
      rstripSlash ("https".toList ++ ':' :: '/' :: '/' :: ("Host.COM".toList ++ "/a/".toList)) :=
  c6_normalize_canonical _ _ _ _ _ _ (by decide) (by decide) (by decide) (by decide)
    (by decide) (by decide) (by decide) (by decide) (by decide) (by decide)
    (by decide) (by decide) (by decide)
theorem notNetlocDelim_ne {c : Char} (h : notNetlocDelim c = true) :
    c ≠ '/' ∧ c ≠ '?' ∧ c ≠ '#' := by
  refine ⟨?_, ?_, ?_⟩ <;> intro he <;> subst he <;> exact absurd h (by decide)

theorem saneBase_props {base : Str} (hb : saneBase base = true) :
    base ≠ [] ∧
    ((urlparse base []).scheme = "http".toList ∨
      (urlparse base []).scheme = "https".toList) ∧
    (urlparse base []).netloc ≠ [] := by
  simp only [saneBase, decide_eq_true_eq] at hb
  refine ⟨?_, hb.1, hb.2⟩
  intro he
  subst he
  revert hb
  decide

theorem urljoin_nil_right (base : Str) (hb : base ≠ []) : urljoin base [] = base := by
  simp only [urljoin]
  rw [if_neg hb, if_pos trivial]

theorem urlparse_default_irrel {url : Str} (pre post d : Str)
    (hurl : url = pre ++ ':' :: post) (hv : validScheme pre = true) :
    urlparse url d = urlparse url [] := by
  have h1 : splitScheme url d = (strLower pre, post) := by
    rw [hurl]
    exact splitScheme_of_scheme post d hv
  have h2 : splitScheme url [] = (strLower pre, post) := by
    rw [hurl]
    exact splitScheme_of_scheme post [] hv
  have h3 : urlsplit url d = urlsplit url [] := by
    simp only [urlsplit, h1, h2]
  simp only [urlparse, h3]

theorem urljoin_branch1_info (base url : Str)
    (hrel : (urlparse base []).scheme ∈ uses_relative)
    (hcond : (urlparse url (urlparse base []).scheme).scheme ≠ (urlparse base []).scheme ∨
      (urlparse url (urlparse base []).scheme).scheme ∉ uses_relative) :
    urlparse url [] = urlparse url (urlparse base []).scheme ∧
    validScheme (urlparse url []).scheme = true ∧
    strLower (urlparse url []).scheme = (urlparse url []).scheme ∧
    (urlparse url []).scheme ≠ (urlparse base []).scheme := by
  rcases splitScheme_cases url (urlparse base []).scheme with hfail | ⟨pre, post, hurl, hv, hsucc⟩
  · exfalso
    have hsch : (urlparse url (urlparse base []).scheme).scheme = (urlparse base []).scheme := by
      rw [(urlparse_components url (urlparse base []).scheme).1, urlsplit_scheme, hfail]
    rcases hcond with hc | hc
    · exact hc hsch
    · rw [hsch] at hc
      exact hc hrel
  · have hirr := urlparse_default_irrel pre post (urlparse base []).scheme hurl hv
    have hschd : (urlparse url (urlparse base []).scheme).scheme = strLower pre := by
      rw [(urlparse_components url (urlparse base []).scheme).1, urlsplit_scheme, hsucc]
    have hsch0 : (urlparse url []).scheme = strLower pre := by
      rw [← hirr]
      exact hschd
    refine ⟨hirr.symm, ?_, ?_, ?_⟩
    · rw [hsch0]
      exact validScheme_strLower hv
    · rw [hsch0]
      exact strLower_strLower pre
    · rw [hsch0]
      intro he
      rcases hcond with hc | hc
      · rw [hschd] at hc
        exact hc he
      · rw [hschd, he] at hc
        exact hc hrel
theorem normalize_shape (base U : Str) (hb : saneBase base = true) :
    ∃ g t, CrawlerV02.normalize_url base U = rstripSlash (g ++ ':' :: '/' :: '/' :: t) ∧
      validScheme g = true ∧ strLower g = g ∧ '#' ∉ t ∧ '?' ∉ t ∧
      (g = (urlparse base []).scheme →
        ∃ n p, t = n ++ p ∧ n ≠ [] ∧ (∀ c ∈ n, notNetlocDelim c = true) ∧
          (p = [] ∨ p.take 1 = ['/'])) := by
  obtain ⟨hbase, hbs, hbn⟩ := saneBase_props hb
  have hrel : (urlparse base []).scheme ∈ uses_relative := by
    rcases hbs with h | h <;> rw [h] <;> decide
  have hbnet : (urlparse base []).scheme ∈ uses_netloc := by
    rcases hbs with h | h <;> rw [h] <;> decide
  have hbv : validScheme (urlparse base []).scheme = true := by
    rcases hbs with h | h <;> rw [h] <;> decide
  have hbl : strLower (urlparse base []).scheme = (urlparse base []).scheme := by
    rcases hbs with h | h <;> rw [h] <;> decide
  obtain ⟨pn, ppf, ppq, pqf, pshape, pscheme, hx7, hx8⟩ :=
    urlparse_props (urljoin base U) []
  have main : (validScheme (urlparse (urljoin base U) []).scheme = true ∧
      strLower (urlparse (urljoin base U) []).scheme = (urlparse (urljoin base U) []).scheme) ∧
      ((urlparse (urljoin base U) []).scheme = (urlparse base []).scheme →
        (urlparse (urljoin base U) []).netloc ≠ []) := by
    by_cases hU : U = []
    · subst hU
      rw [urljoin_nil_right base hbase]
      exact ⟨⟨hbv, hbl⟩, fun _ => hbn⟩
    · by_cases hcond : (urlparse U (urlparse base []).scheme).scheme ≠ (urlparse base []).scheme ∨
          (urlparse U (urlparse base []).scheme).scheme ∉ uses_relative
      · have info := urljoin_branch1_info base U hrel hcond
        rw [urljoin_of_other base U hbase hU hcond]
        exact ⟨⟨info.2.1, info.2.2.1⟩, fun he => absurd he info.2.2.2⟩
      · have husch : (urlparse U (urlparse base []).scheme).scheme = (urlparse base []).scheme := by
          by_contra hne
          exact hcond (Or.inl hne)
        have hfin : ∀ nl pt pr q f : Str, nl ≠ [] → (∀ c ∈ nl, notNetlocDelim c = true) →
            urljoin base U = urlunparse ⟨(urlparse base []).scheme, nl, pt, pr, q, f⟩ →
            (validScheme (urlparse (urljoin base U) []).scheme = true ∧
              strLower (urlparse (urljoin base U) []).scheme =
                (urlparse (urljoin base U) []).scheme) ∧
            ((urlparse (urljoin base U) []).scheme = (urlparse base []).scheme →
              (urlparse (urljoin base U) []).netloc ≠ []) := by
          intro nl pt pr q f hnl hnlc hj
          have hre := urlparse_urlunparse (urlparse base []).scheme nl pt pr q f []
            hbv hbl hnl hnlc
          rw [hj, hre.1]
          refine ⟨⟨hbv, hbl⟩, fun _ => ?_⟩
          rw [hre.2]
          exact hnl
        by_cases hnet : (urlparse U (urlparse base []).scheme).scheme ∈ uses_netloc ∧
            (urlparse U (urlparse base []).scheme).netloc ≠ []
        · have hj := urljoin_of_netloc base U hbase hU hcond hnet
          rw [husch] at hj
          exact hfin _ _ _ _ _ hnet.2 (urlparse_props U (urlparse base []).scheme).1 hj
        · by_cases hpe : (urlparse U (urlparse base []).scheme).path = [] ∧
              (urlparse U (urlparse base []).scheme).params = []
          · have hj := urljoin_of_empty_path base U hbase hU hcond hnet hpe
            rw [husch, if_pos hbnet] at hj
            exact hfin _ _ _ _ _ hbn (urlparse_props base []).1 hj
          · have hj := urljoin_of_segments base U hbase hU hcond hnet hpe
            rw [husch, if_pos hbnet] at hj
            exact hfin _ _ _ _ _ hbn (urlparse_props base []).1 hj
  refine ⟨(urlparse (urljoin base U) []).scheme,
    (urlparse (urljoin base U) []).netloc ++ (urlparse (urljoin base U) []).path,
    rfl, main.1.1, main.1.2, ?_, ?_, ?_⟩
  · intro hc
    rcases List.mem_append.mp hc with hc | hc
    · exact (notNetlocDelim_ne (pn _ hc)).2.2 rfl
    · exact ppf hc
  · intro hc
    rcases List.mem_append.mp hc with hc | hc
    · exact (notNetlocDelim_ne (pn _ hc)).2.1 rfl
    · exact ppq hc
  · intro hg
    exact ⟨(urlparse (urljoin base U) []).netloc, (urlparse (urljoin base U) []).path,
      rfl, main.2 hg, pn, pshape (main.2 hg)⟩
theorem normalize_fixpoint (base g t : Str) (hb : saneBase base = true)
    (hg : validScheme g = true) (hgl : strLower g = g)
    (ht1 : '#' ∉ t) (ht2 : '?' ∉ t)
    (himp : g = (urlparse base []).scheme →
      ∃ n p, t = n ++ p ∧ n ≠ [] ∧ (∀ c ∈ n, notNetlocDelim c = true) ∧
        (p = [] ∨ p.take 1 = ['/']))
    (hsemi : ';' ∉ rstripSlash (g ++ ':' :: '/' :: '/' :: t)) :
    CrawlerV02.normalize_url base (rstripSlash (g ++ ':' :: '/' :: '/' :: t)) =
      rstripSlash (g ++ ':' :: '/' :: '/' :: t) := by
  obtain ⟨hbase, hbs, hbn⟩ := saneBase_props hb
  have hrel : (urlparse base []).scheme ∈ uses_relative := by
    rcases hbs with h | h <;> rw [h] <;> decide
  have hbnet : (urlparse base []).scheme ∈ uses_netloc := by
    rcases hbs with h | h <;> rw [h] <;> decide
  have hgne : g ≠ [] := validScheme_ne_nil hg
  have hW2 : rstripSlash (g ++ ':' :: '/' :: '/' :: t) =
      g ++ rstripSlash (':' :: '/' :: '/' :: t) := by
    rw [rstripSlash_append, if_neg]
    intro hc
    exact absurd (rstripSlash_eq_nil_iff.mp hc ':' (by simp)) (by decide)
  have hkey : rstripSlash (':' :: '/' :: '/' :: t) =
      if rstripSlash t = [] then [':'] else ':' :: '/' :: '/' :: rstripSlash t := by
    have h1 : (':' :: '/' :: '/' :: t) = [':', '/', '/'] ++ t := rfl
    rw [h1, rstripSlash_append]
    split
    · decide
    · rfl
  by_cases htz : rstripSlash t = []
  · have hWa : rstripSlash (g ++ ':' :: '/' :: '/' :: t) = g ++ [':'] := by
      rw [hW2, hkey, if_pos htz]
    have hgb : g ≠ (urlparse base []).scheme := by
      intro he
      obtain ⟨n, p, hnp, hn, hnc, hps⟩ := himp he
      cases n with
      | nil => exact hn rfl
      | cons c n2 =>
        have hct : c ∈ t := by
          rw [hnp]
          simp
        have hcs : c = '/' := rstripSlash_eq_nil_iff.mp htz c hct
        have hdel := hnc c (by simp)
        rw [hcs] at hdel
        exact absurd hdel (by decide)
    have hpw : ∀ d, urlparse (g ++ [':']) d = ⟨g, [], [], [], [], []⟩ := by
      intro d
      have hs1 : splitScheme (g ++ ':' :: ([] : Str)) d = (g, []) := by
        rw [splitScheme_of_scheme [] d hg, hgl]
      have h3 : urlsplit (g ++ [':']) d = ⟨g, [], [], [], []⟩ := by
        simp only [urlsplit, hs1]
        rfl
      exact urlparse_of_urlsplit h3 (by simp)
    have hWne : g ++ [':'] ≠ [] := by
      intro hc
      exact hgne (List.append_eq_nil.mp hc).1
    have hcond : (urlparse (g ++ [':']) (urlparse base []).scheme).scheme ≠
          (urlparse base []).scheme ∨
        (urlparse (g ++ [':']) (urlparse base []).scheme).scheme ∉ uses_relative := by
      left
      rw [hpw]
      exact hgb
    have hj : urljoin base (g ++ [':']) = g ++ [':'] :=
      urljoin_of_other base _ hbase hWne hcond
    rw [hWa]
    have hnorm : CrawlerV02.normalize_url base (g ++ [':']) =
        rstripSlash ((urlparse (urljoin base (g ++ [':'])) []).scheme ++ ':' :: '/' :: '/' ::
          ((urlparse (urljoin base (g ++ [':'])) []).netloc ++
            (urlparse (urljoin base (g ++ [':'])) []).path)) := rfl
    rw [hnorm, hj, hpw]
    show rstripSlash (g ++ [':', '/', '/']) = g ++ [':']
    rw [rstripSlash_append, if_neg (by decide),
      show rstripSlash [':', '/', '/'] = [':'] from by decide]
  · have hWb : rstripSlash (g ++ ':' :: '/' :: '/' :: t) =
        g ++ ':' :: '/' :: '/' :: rstripSlash t := by
      rw [hW2, hkey, if_neg htz]
    rw [hWb] at hsemi ⊢
    have ht1' : '#' ∉ rstripSlash t := fun hc => ht1 (mem_rstripSlash hc)
    have ht2' : '?' ∉ rstripSlash t := fun hc => ht2 (mem_rstripSlash hc)
    have hts' : ';' ∉ rstripSlash t := fun hc => hsemi (by simp [hc])
    have hWne : g ++ ':' :: '/' :: '/' :: rstripSlash t ≠ [] := by
      intro hc
      exact hgne (List.append_eq_nil.mp hc).1
    by_cases hgb : g = (urlparse base []).scheme
    · obtain ⟨n, p, hnp, hn, hnc, hps⟩ := himp hgb
      have hnslash : '/' ∉ n := fun hc => (notNetlocDelim_ne (hnc _ hc)).1 rfl
      have hrn : rstripSlash n = n := rstripSlash_no_slash hnslash
      obtain ⟨p2, ht', hp2s, hp2p⟩ : ∃ p2, rstripSlash t = n ++ p2 ∧
          (p2 = [] ∨ p2.take 1 = ['/']) ∧ p2 <+: p := by
        rw [hnp, rstripSlash_append]
        by_cases hrp : rstripSlash p = []
        · exact ⟨[], by rw [if_pos hrp, hrn, List.append_nil], Or.inl rfl, List.nil_prefix⟩
        · refine ⟨rstripSlash p, by rw [if_neg hrp], Or.inr ?_, rstripSlash_pref p⟩
          have hpne : p ≠ [] := by
            intro he
            subst he
            exact hrp (by decide)
          have hptake : p.take 1 = ['/'] := by
            rcases hps with h | h
            · exact absurd h hpne
            · exact h
          rw [prefix_take_one (rstripSlash_pref p) hrp]
          exact hptake
      have hp2q : '?' ∉ p2 := fun hc => ht2' (by rw [ht']; simp [hc])
      have hp2f : '#' ∉ p2 := fun hc => ht1' (by rw [ht']; simp [hc])
      have hp2semi : ';' ∉ p2 := fun hc => hts' (by rw [ht']; simp [hc])
      have hu : ∀ d, urlparse (g ++ ':' :: '/' :: '/' :: (n ++ p2)) d
          = ⟨g, n, p2, [], [], []⟩ :=
        fun d => urlparse_compute_nopq n p2 d hg hgl hnc hp2s hp2q hp2f hp2semi
      rw [ht']
      have hWne2 : g ++ ':' :: '/' :: '/' :: (n ++ p2) ≠ [] := by
        intro hc
        exact hgne (List.append_eq_nil.mp hc).1
      have hcond : ¬ ((urlparse (g ++ ':' :: '/' :: '/' :: (n ++ p2))
            (urlparse base []).scheme).scheme ≠ (urlparse base []).scheme ∨
          (urlparse (g ++ ':' :: '/' :: '/' :: (n ++ p2))
            (urlparse base []).scheme).scheme ∉ uses_relative) := by
        intro hc
        rcases hc with hc | hc
        · apply hc
          rw [hu]
          exact hgb
        · apply hc
          rw [hu]
          show g ∈ uses_relative
          rw [hgb]
          exact hrel
      have hnet : (urlparse (g ++ ':' :: '/' :: '/' :: (n ++ p2))
            (urlparse base []).scheme).scheme ∈ uses_netloc ∧
          (urlparse (g ++ ':' :: '/' :: '/' :: (n ++ p2))
            (urlparse base []).scheme).netloc ≠ [] := by
        rw [hu]
        refine ⟨?_, hn⟩
        show g ∈ uses_netloc
        rw [hgb]
        exact hbnet
      have hj := urljoin_of_netloc base _ hbase hWne2 hcond hnet
      rw [hu] at hj
      have hj2 : urljoin base (g ++ ':' :: '/' :: '/' :: (n ++ p2)) =
          g ++ ':' :: '/' :: '/' :: (n ++ p2) := by
        rw [hj]
        exact urlunparse_nopq g n p2 hgne hn hp2s
      have hnorm : CrawlerV02.normalize_url base (g ++ ':' :: '/' :: '/' :: (n ++ p2)) =
          rstripSlash ((urlparse (urljoin base (g ++ ':' :: '/' :: '/' :: (n ++ p2))) []).scheme
            ++ ':' :: '/' :: '/' ::
            ((urlparse (urljoin base (g ++ ':' :: '/' :: '/' :: (n ++ p2))) []).netloc ++
              (urlparse (urljoin base (g ++ ':' :: '/' :: '/' :: (n ++ p2))) []).path)) := rfl
      rw [hnorm, hj2, hu]
      show rstripSlash (g ++ ':' :: '/' :: '/' :: (n ++ p2)) =
        g ++ ':' :: '/' :: '/' :: (n ++ p2)
      have hcomb : rstripSlash (g ++ ':' :: '/' :: '/' :: t) =
          g ++ ':' :: '/' :: '/' :: (n ++ p2) := by
        rw [hWb, ht']
      rw [← hcomb, rstripSlash_idem]
    · obtain ⟨nl, pp, hu2, hsum, hnlc2, hpph⟩ :=
        urlparse_generic_noqf (rstripSlash t) (urlparse base []).scheme hg hgl ht2' ht1' hts'
      obtain ⟨nl0, pp0, hu0, hsum0, hc0, hd0⟩ :=
        urlparse_generic_noqf (rstripSlash t) [] hg hgl ht2' ht1' hts'
      have hcond : (urlparse (g ++ ':' :: '/' :: '/' :: rstripSlash t)
            (urlparse base []).scheme).scheme ≠ (urlparse base []).scheme ∨
          (urlparse (g ++ ':' :: '/' :: '/' :: rstripSlash t)
            (urlparse base []).scheme).scheme ∉ uses_relative := by
        left
        rw [hu2]
        exact hgb
      have hj : urljoin base (g ++ ':' :: '/' :: '/' :: rstripSlash t) =
          g ++ ':' :: '/' :: '/' :: rstripSlash t :=
        urljoin_of_other base _ hbase hWne hcond
      have hnorm : CrawlerV02.normalize_url base (g ++ ':' :: '/' :: '/' :: rstripSlash t) =
          rstripSlash ((urlparse (urljoin base (g ++ ':' :: '/' :: '/' :: rstripSlash t)) []).scheme
            ++ ':' :: '/' :: '/' ::
            ((urlparse (urljoin base (g ++ ':' :: '/' :: '/' :: rstripSlash t)) []).netloc ++
              (urlparse (urljoin base (g ++ ':' :: '/' :: '/' :: rstripSlash t)) []).path)) := rfl
      rw [hnorm, hj, hu0]
      show rstripSlash (g ++ ':' :: '/' :: '/' :: (nl0 ++ pp0)) =
        g ++ ':' :: '/' :: '/' :: rstripSlash t
      rw [hsum0, ← hWb, rstripSlash_idem]
/-- C7 counterexample: `_normalize_url` is not idempotent. With base
`https://example.com`, normalizing `https://example.com/a;x/` once yields
`https://example.com/a;x` (the trailing slash is stripped, exposing `;x` to
the last path segment), and normalizing that again yields
`https://example.com/a` (the params part `;x` is now split off by `urlparse`
and dropped by the rebuild), so the second normalization changes the URL. -/
theorem c7_counterexample :
    CrawlerV02.normalize_url "https://example.com".toList
        (CrawlerV02.normalize_url "https://example.com".toList
          "https://example.com/a;x/".toList) ≠
      CrawlerV02.normalize_url "https://example.com".toList
        "https://example.com/a;x/".toList := by
  decide

/-- C7 (amended): `_normalize_url` is idempotent on every input whose first
normalization contains no `';'`, for any well-formed http(s) base with a
non-empty host. The `';'` restriction is necessary: stripping a trailing
slash can expose a `;params` suffix in the last path segment, which a second
parse then splits off and drops (see the counterexample). -/
theorem c7_normalize_idempotent (base U : Str) (hb : saneBase base = true)
    (hs : ';' ∉ CrawlerV02.normalize_url base U) :
    CrawlerV02.normalize_url base (CrawlerV02.normalize_url base U) =
      CrawlerV02.normalize_url base U := by
  obtain ⟨g, t, hW, hgv, hgl, ht1, ht2, himp⟩ := normalize_shape base U hb
  rw [hW] at hs ⊢
  exact normalize_fixpoint base g t hb hgv hgl ht1 ht2 himp hs

/-- Witness for `c7_normalize_idempotent` at concrete inputs. -/
theorem c7_normalize_idempotent_witness :
    CrawlerV02.normalize_url "https://example.com".toList
        (CrawlerV02.normalize_url "https://example.com".toList
          "https://example.com/a?x=1#f".toList) =
      CrawlerV02.normalize_url "https://example.com".toList
        "https://example.com/a?x=1#f".toList :=
  c7_normalize_idempotent _ _ (by decide) (by decide)
